import Mathlib

/-!
Verification of the aitui markdown renderer and TUI controller.

This file gives a shallow embedding, in Lean 4, of the pure algorithmic core of
the aitui terminal chat application (src/md_renderer.py, src/tui.py, src/api.py)
and proves or refutes the specification claims about it.

Conventions of the embedding:
* Python strings are modelled as `List Char`; Python string slicing, `strip`,
  `split`, `startswith` are modelled by the `py`-named helpers below.
* Python `int` is modelled as `Nat` where the source values are provably
  non-negative, and as `Int` where sign matters; every place where Lean's
  truncating `Nat` subtraction could diverge from Python semantics is noted in
  a comment at the definition.
* curses attributes are modelled by their numeric values in CPython's curses
  binding: an attribute word is a `Nat`, `A_BOLD = 1 <<< 21`,
  `A_UNDERLINE = 1 <<< 17`, `color_pair n = n <<< 8`, and `|` is `Nat.lor`.
* Loops whose variant is not structural are written with an explicit fuel
  argument; each such definition is used with fuel that provably dominates the
  loop variant, and the faithfulness domain is stated in its doc comment.
-/

set_option autoImplicit false

namespace Aitui

/-- Whitespace test matching Python's whitespace class (spaces, tab, newline,
carriage return, vertical tab, form feed) on ASCII text. -/
def isSpaceChar (c : Char) : Bool :=
  c == ' ' || c == '\t' || c == '\n' || c == '\r' || c == '\x0b' || c == '\x0c'

/-- A styled run: the text of the run together with its curses attribute word.
Corresponds to the `(text, attr)` pairs used throughout src/md_renderer.py. -/
abbrev Run := List Char × Nat

/-- A rendered line: a list of styled runs, as produced by the renderer. -/
abbrev StyledLine := List Run

/-- Rendered character length of a styled line: the sum of its runs' lengths. -/
def lineLen (l : StyledLine) : Nat := (l.map (fun r => r.1.length)).sum

/-- curses.A_BOLD in CPython's curses module. -/
def A_BOLD : Nat := 2097152

/-- curses.A_UNDERLINE in CPython's curses module. -/
def A_UNDERLINE : Nat := 131072

/-- curses.A_ITALIC in CPython's curses module. -/
def A_ITALIC : Nat := 2147483648

/-- curses.color_pair n: the pair number shifted into the attribute word. -/
def colorPair (n : Nat) : Nat := n * 256

/-- Python str.strip() for our whitespace class: drop leading and trailing
whitespace characters. -/
def pyStrip (cs : List Char) : List Char :=
  ((cs.dropWhile isSpaceChar).reverse.dropWhile isSpaceChar).reverse

/-- Python str.startswith: the first argument is the pattern. -/
def startsWithChars : List Char → List Char → Bool
  | [], _ => true
  | _ :: _, [] => false
  | p :: ps, c :: cs => p == c && startsWithChars ps cs

/-- One step of splitting a string into maximal runs of same-class characters
(whitespace versus non-whitespace).  Structural fuel: each step consumes at
least the head character, so fuel equal to the length is exact. -/
def tokenizeAux : Nat → List Char → List (List Char)
  | 0, _ => []
  | _ + 1, [] => []
  | fuel + 1, c :: rest =>
    let run := rest.takeWhile (fun d => isSpaceChar d == isSpaceChar c)
    let rest2 := rest.dropWhile (fun d => isSpaceChar d == isSpaceChar c)
    (c :: run) :: tokenizeAux fuel rest2

/-- The nonempty pieces of Python's `re.split(r'(\s+)', text)`: the maximal
whitespace and non-whitespace runs of `text`, in order.  (`re.split` with a
capturing separator also yields empty strings at the borders, which the loop
in `wrap_styled_text` skips with `if not part: continue`; this function
produces exactly the non-skipped parts.) -/
def tokenize (cs : List Char) : List (List Char) := tokenizeAux cs.length cs

/-- Python str.isspace() as applied to the parts produced by `tokenize`:
true iff nonempty and all characters are whitespace. -/
def isSpaceTok (p : List Char) : Bool := !p.isEmpty && p.all isSpaceChar

/-- The inner `while len(part) > 0` loop of `wrap_styled_text`
(src/md_renderer.py lines 59 to 74), which hard-splits a token longer than the
width.  State: pending token `part`, accumulated `lines`, current line `cur` of
width `curW`.  The flush condition `space_left <= 0` of the source is
`width ≤ curW` (both quantities are non-negative here).

Fuel: for `width ≥ 1` every iteration consumes at least one character of
`part`, so fuel `part.length` makes the model exact.  For `width ≤ 0` the
source loop itself never terminates (see `hardSplitStepInt` below for the
divergence witness), and this model instead stops when fuel runs out. -/
def hardSplit : Nat → Nat → Nat → List Char → List StyledLine → StyledLine → Nat →
    List StyledLine × StyledLine × Nat
  | 0, _, _, _, lines, cur, curW => (lines, cur, curW)
  | fuel + 1, width, attr, part, lines, cur, curW =>
    if part.isEmpty then (lines, cur, curW)
    else
      let flush : Bool := width ≤ curW
      let lines1 := if flush then lines ++ [cur] else lines
      let cur1 : StyledLine := if flush then [] else cur
      let curW1 := if flush then 0 else curW
      let spaceLeft := if flush then width else width - curW
      let chunk := part.take spaceLeft
      let cur2 := cur1 ++ [(chunk, attr)]
      let curW2 := curW1 + chunk.length
      let part2 := part.drop spaceLeft
      if part2.isEmpty then (lines1, cur2, curW2)
      else hardSplit fuel width attr part2 (lines1 ++ [cur2]) [] 0

/-- The main token loop of `wrap_styled_text` (src/md_renderer.py lines
42 to 82), processing the flattened list of `(part, attr)` tokens:
* a part that fits is appended to the current line;
* a whitespace part that would overflow flushes the current line and is
  dropped;
* a non-whitespace part longer than the whole width is hard-split;
* any other overflowing part starts a new line. -/
def wrapLoop : List Run → Nat → List StyledLine → StyledLine → Nat →
    List StyledLine × StyledLine × Nat
  | [], _, lines, cur, curW => (lines, cur, curW)
  | (part, attr) :: parts, width, lines, cur, curW =>
    if width < curW + part.length then
      if isSpaceTok part then
        if cur.isEmpty then wrapLoop parts width lines cur curW
        else wrapLoop parts width (lines ++ [cur]) [] 0
      else if width < part.length then
        let s := hardSplit part.length width attr part lines cur curW
        wrapLoop parts width s.1 s.2.1 s.2.2
      else
        wrapLoop parts width (if cur.isEmpty then lines else lines ++ [cur])
          [(part, attr)] part.length
    else
      wrapLoop parts width lines (cur ++ [(part, attr)]) (curW + part.length)

/-- `wrap_styled_text(segments, width)` of src/md_renderer.py lines 33 to 87:
wraps a list of styled runs into lines of at most `width` characters.
The model is exact for `width ≥ 1`; for `width ≤ 0` the source function
does not terminate on any input containing a visible token. -/
def wrap_styled_text (segments : List Run) (width : Nat) : List StyledLine :=
  if segments.isEmpty then []
  else
    let parts := (segments.map (fun s => (tokenize s.1).map (fun p => (p, s.2)))).flatten
    let r := wrapLoop parts width [] [] 0
    if r.2.1.isEmpty then r.1 else r.1 ++ [r.2.1]

/-- Decomposition of a string into consecutive chunks of `width` characters
(the last chunk possibly shorter).  Fuel-based; fuel `cs.length` is exact for
`width ≥ 1`. -/
def chunksOfAux (width : Nat) : Nat → List Char → List (List Char)
  | 0, _ => []
  | _ + 1, [] => []
  | fuel + 1, c :: cs => (c :: cs).take width :: chunksOfAux width fuel ((c :: cs).drop width)

/-- Consecutive `width`-character chunks of a string, last chunk possibly
shorter.  This is the reference shape against which the hard-split behaviour
of `wrap_styled_text` is compared. -/
def chunksOf (width : Nat) (cs : List Char) : List (List Char) :=
  chunksOfAux width cs.length cs

-- Sanity checks of the wrap embedding against the source behaviour.
example : tokenize ("ab  cd".toList) = ["ab".toList, "  ".toList, "cd".toList] := by decide
example : wrap_styled_text [("hello world".toList, 0)] 5 =
    [[("hello".toList, 0)], [("world".toList, 0)]] := by decide
example : wrap_styled_text [("ab ccc".toList, 7)] 10 =
    [[("ab".toList, 7), (" ".toList, 7), ("ccc".toList, 7)]] := by decide
example : wrap_styled_text [("aaaaaaa".toList, 0)] 3 =
    [[("aaa".toList, 0)], [("aaa".toList, 0)], [("a".toList, 0)]] := by decide

/-! Basic lemmas about styled lines and the chunk decomposition. -/

lemma lineLen_append (a b : StyledLine) : lineLen (a ++ b) = lineLen a + lineLen b := by
  simp [lineLen]

lemma lineLen_single (t : List Char) (attr : Nat) : lineLen [(t, attr)] = t.length := by
  simp [lineLen]

lemma tokenizeAux_nil : ∀ fuel, tokenizeAux fuel [] = [] := by
  intro fuel; cases fuel <;> rfl

lemma getLastD_indep {α : Type} (a d d' : α) (l : List α) :
    (a :: l).getLastD d = (a :: l).getLastD d' := by
  cases l <;> rfl

lemma dropLast_append_getLastD {α : Type} (d : α) :
    ∀ l : List α, l ≠ [] → l.dropLast ++ [l.getLastD d] = l := by
  intro l
  induction l with
  | nil => intro h; contradiction
  | cons a l ih =>
    intro _
    cases l with
    | nil => rfl
    | cons b l' =>
      have h1 : (a :: b :: l').dropLast = a :: (b :: l').dropLast := rfl
      have h2 : (a :: b :: l').getLastD d = (b :: l').getLastD d := by
        show (b :: l').getLastD a = (b :: l').getLastD d
        exact getLastD_indep b a d l'
      rw [h1, h2, List.cons_append, ih (by simp)]

lemma chunksOfAux_fuel (width : Nat) (hw : 1 ≤ width) :
    ∀ f1 f2 cs, cs.length ≤ f1 → cs.length ≤ f2 →
      chunksOfAux width f1 cs = chunksOfAux width f2 cs := by
  intro f1
  induction f1 with
  | zero =>
    intro f2 cs h1 _
    have hcs : cs = [] := by
      cases cs with
      | nil => rfl
      | cons c cs' => simp at h1
    subst hcs
    cases f2 <;> rfl
  | succ n ih =>
    intro f2 cs h1 h2
    cases cs with
    | nil => cases f2 <;> rfl
    | cons c cs' =>
      cases f2 with
      | zero => simp at h2
      | succ m =>
        simp only [chunksOfAux]
        congr 1
        apply ih
        · simp only [List.length_drop, List.length_cons]
          simp only [List.length_cons] at h1
          omega
        · simp only [List.length_drop, List.length_cons]
          simp only [List.length_cons] at h2
          omega

lemma chunksOf_cons (width : Nat) (hw : 1 ≤ width) (cs : List Char) (hcs : cs ≠ []) :
    chunksOf width cs = cs.take width :: chunksOf width (cs.drop width) := by
  cases cs with
  | nil => contradiction
  | cons c cs' =>
    show chunksOfAux width (cs'.length + 1) (c :: cs') = _
    simp only [chunksOfAux]
    congr 1
    apply chunksOfAux_fuel width hw
    · simp only [List.length_drop, List.length_cons]; omega
    · exact le_rfl

lemma chunksOf_ne_nil (width : Nat) (hw : 1 ≤ width) (cs : List Char) (hcs : cs ≠ []) :
    chunksOf width cs ≠ [] := by
  rw [chunksOf_cons width hw cs hcs]
  simp

lemma chunksOf_nil (width : Nat) : chunksOf width [] = [] := rfl

lemma chunksOf_length (width : Nat) (hw : 1 ≤ width) :
    ∀ cs : List Char, (chunksOf width cs).length = (cs.length + width - 1) / width := by
  suffices H : ∀ n (cs : List Char), cs.length ≤ n →
      (chunksOf width cs).length = (cs.length + width - 1) / width by
    exact fun cs => H cs.length cs le_rfl
  intro n
  induction n with
  | zero =>
    intro cs h
    have hcs : cs = [] := by
      cases cs with
      | nil => rfl
      | cons c cs' => simp at h
    subst hcs
    simp [chunksOf_nil, Nat.div_eq_of_lt (by omega : width - 1 < width)]
  | succ n ih =>
    intro cs h
    cases hcs : cs with
    | nil => simp [chunksOf_nil, Nat.div_eq_of_lt (by omega : width - 1 < width)]
    | cons c cs' =>
      subst hcs
      rw [chunksOf_cons width hw _ (by simp)]
      have hdl : ((c :: cs').drop width).length = (c :: cs').length - width := by
        simp [List.length_drop]
      have hrec := ih ((c :: cs').drop width) (by
        simp only [List.length_drop, List.length_cons] at *
        omega)
      simp only [List.length_cons] at *
      rw [hrec, hdl]
      have hw0 : 0 < width := hw
      -- both sides are ceiling divisions; reduce via (m + width - 1) = (m - 1) + width
      by_cases hbig : cs'.length + 1 ≤ width
      · have hz : cs'.length + 1 - width + width - 1 = width - 1 := by omega
        have h2 : cs'.length + 1 + width - 1 = (cs'.length + 1 - 1) + width := by omega
        rw [hz, h2, Nat.add_div_right _ hw0,
          Nat.div_eq_of_lt (by omega : width - 1 < width),
          Nat.div_eq_of_lt (by omega : cs'.length + 1 - 1 < width)]
      · have h2 : cs'.length + 1 + width - 1 = (cs'.length + 1 - width + width - 1) + width := by
          omega
        rw [h2, Nat.add_div_right _ hw0]

lemma dropLast_cons_ne {α : Type} (a : α) (l : List α) (h : l ≠ []) :
    (a :: l).dropLast = a :: l.dropLast := by
  cases l with
  | nil => contradiction
  | cons b l' => rfl

lemma chunksOf_dropLast_len (width : Nat) (hw : 1 ≤ width) :
    ∀ cs : List Char, ∀ c ∈ (chunksOf width cs).dropLast, c.length = width := by
  suffices H : ∀ n (cs : List Char), cs.length ≤ n →
      ∀ c ∈ (chunksOf width cs).dropLast, c.length = width by
    exact fun cs => H cs.length cs le_rfl
  intro n
  induction n with
  | zero =>
    intro cs h c hc
    have hcs : cs = [] := by cases cs with
      | nil => rfl
      | cons a cs' => simp at h
    subst hcs
    simp [chunksOf_nil] at hc
  | succ n ih =>
    intro cs h c hc
    cases hcs : cs with
    | nil =>
      subst hcs
      simp [chunksOf_nil] at hc
    | cons a cs' =>
      subst hcs
      rw [chunksOf_cons width hw _ (by simp)] at hc
      by_cases hsz : (a :: cs').length ≤ width
      · have hdrop : (a :: cs').drop width = [] := by
          rw [List.drop_eq_nil_iff]
          exact hsz
        rw [hdrop, chunksOf_nil] at hc
        simp at hc
      · push_neg at hsz
        have hne : (a :: cs').drop width ≠ [] := by
          intro hE
          rw [List.drop_eq_nil_iff] at hE
          omega
        rw [dropLast_cons_ne _ _ (chunksOf_ne_nil width hw _ hne)] at hc
        rcases List.mem_cons.mp hc with hc1 | hc2
        · subst hc1
          rw [List.length_take]
          omega
        · exact ih ((a :: cs').drop width) (by
            simp only [List.length_drop, List.length_cons]
            simp only [List.length_cons] at h
            omega) c hc2

lemma chunksOf_len_le (width : Nat) (hw : 1 ≤ width) :
    ∀ cs : List Char, ∀ c ∈ chunksOf width cs, c.length ≤ width := by
  suffices H : ∀ n (cs : List Char), cs.length ≤ n →
      ∀ c ∈ chunksOf width cs, c.length ≤ width by
    exact fun cs => H cs.length cs le_rfl
  intro n
  induction n with
  | zero =>
    intro cs h c hc
    have hcs : cs = [] := by cases cs with
      | nil => rfl
      | cons a cs' => simp at h
    subst hcs
    simp [chunksOf_nil] at hc
  | succ n ih =>
    intro cs h c hc
    cases hcs : cs with
    | nil =>
      subst hcs
      simp [chunksOf_nil] at hc
    | cons a cs' =>
      subst hcs
      rw [chunksOf_cons width hw _ (by simp)] at hc
      rcases List.mem_cons.mp hc with hc1 | hc2
      · subst hc1
        rw [List.length_take]
        omega
      · exact ih ((a :: cs').drop width) (by
          simp only [List.length_drop, List.length_cons]
          simp only [List.length_cons] at h
          omega) c hc2

/-! Invariant: every line the wrap loop emits fits in the width, and the
running current-line width is accurately tracked and bounded. -/

lemma hardSplit_inv (width attr : Nat) (hw : 1 ≤ width) :
    ∀ fuel part lines cur curW, part.length ≤ fuel →
      (∀ l ∈ lines, lineLen l ≤ width) → lineLen cur = curW → curW ≤ width →
      (∀ l ∈ (hardSplit fuel width attr part lines cur curW).1, lineLen l ≤ width) ∧
        lineLen (hardSplit fuel width attr part lines cur curW).2.1 =
          (hardSplit fuel width attr part lines cur curW).2.2 ∧
        (hardSplit fuel width attr part lines cur curW).2.2 ≤ width := by
  intro fuel
  induction fuel with
  | zero =>
    intro part lines cur curW _ hl hc hcw
    exact ⟨hl, hc, hcw⟩
  | succ n ih =>
    intro part lines cur curW hf hl hc hcw
    by_cases hp : part.isEmpty
    · simp only [hardSplit, hp, if_true]
      exact ⟨hl, hc, hcw⟩
    · have hplen : 0 < part.length := by
        cases part with
        | nil => simp at hp
        | cons x xs => simp
      simp only [hardSplit, hp, if_false, Bool.false_eq_true]
      by_cases hflush : width ≤ curW
      · -- flush the full current line, then cut a full-width chunk
        have hcurW : curW = width := le_antisymm hcw hflush
        simp only [hflush, decide_True, if_true]
        have hl2 : ∀ l ∈ lines ++ [cur], lineLen l ≤ width := by
          intro l hmem
          rcases List.mem_append.mp hmem with h1 | h1
          · exact hl l h1
          · rw [List.mem_singleton.mp h1, hc, hcurW]
        have hchunk : (part.take width).length ≤ width := by
          rw [List.length_take]; omega
        have hcur2 : lineLen ([] ++ [(part.take width, attr)]) = 0 + (part.take width).length := by
          simp [lineLen]
        by_cases hdone : (part.drop width).isEmpty
        · simp only [hdone, if_true]
          refine ⟨hl2, hcur2, ?_⟩
          simp
        · simp only [hdone, if_false, Bool.false_eq_true]
          apply ih
          · simp only [List.length_drop]
            omega
          · intro l hmem
            rcases List.mem_append.mp hmem with h1 | h1
            · exact hl2 l h1
            · rw [List.mem_singleton.mp h1]
              simp [lineLen]
          · rfl
          · omega
      · -- room remains on the current line: cut width - curW characters
        have hlt : curW < width := by omega
        simp only [hflush, decide_False, if_false, Bool.false_eq_true]
        have hchunk : (part.take (width - curW)).length ≤ width - curW := by
          rw [List.length_take]; omega
        have hcur2 : lineLen (cur ++ [(part.take (width - curW), attr)]) =
            curW + (part.take (width - curW)).length := by
          rw [lineLen_append, hc, lineLen_single]
        by_cases hdone : (part.drop (width - curW)).isEmpty
        · simp only [hdone, if_true]
          exact ⟨hl, hcur2, by omega⟩
        · simp only [hdone, if_false, Bool.false_eq_true]
          apply ih
          · simp only [List.length_drop]
            omega
          · intro l hmem
            rcases List.mem_append.mp hmem with h1 | h1
            · exact hl l h1
            · rw [List.mem_singleton.mp h1, hcur2]
              omega
          · rfl
          · omega

lemma wrapLoop_inv (width : Nat) (hw : 1 ≤ width) :
    ∀ parts lines cur curW,
      (∀ l ∈ lines, lineLen l ≤ width) → lineLen cur = curW → curW ≤ width →
      (∀ l ∈ (wrapLoop parts width lines cur curW).1, lineLen l ≤ width) ∧
        lineLen (wrapLoop parts width lines cur curW).2.1 =
          (wrapLoop parts width lines cur curW).2.2 ∧
        (wrapLoop parts width lines cur curW).2.2 ≤ width := by
  intro parts
  induction parts with
  | nil =>
    intro lines cur curW hl hc hcw
    exact ⟨hl, hc, hcw⟩
  | cons pa parts ih =>
    obtain ⟨part, attr⟩ := pa
    intro lines cur curW hl hc hcw
    simp only [wrapLoop]
    by_cases hover : width < curW + part.length
    · simp only [hover, if_true]
      by_cases hsp : isSpaceTok part
      · simp only [hsp, if_true]
        by_cases hce : cur.isEmpty
        · simp only [hce, if_true]
          exact ih lines cur curW hl hc hcw
        · simp only [hce, if_false, Bool.false_eq_true]
          apply ih
          · intro l hmem
            rcases List.mem_append.mp hmem with h1 | h1
            · exact hl l h1
            · rw [List.mem_singleton.mp h1, hc]; exact hcw
          · rfl
          · omega
      · simp only [hsp, if_false, Bool.false_eq_true]
        by_cases hlong : width < part.length
        · simp only [hlong, if_true]
          obtain ⟨h1, h2, h3⟩ :=
            hardSplit_inv width attr hw part.length part lines cur curW le_rfl hl hc hcw
          exact ih _ _ _ h1 h2 h3
        · simp only [hlong, if_false, Bool.false_eq_true]
          apply ih
          · intro l hmem
            by_cases hce : cur.isEmpty
            · simp only [hce, if_true] at hmem
              exact hl l hmem
            · simp only [hce, if_false, Bool.false_eq_true] at hmem
              rcases List.mem_append.mp hmem with h1 | h1
              · exact hl l h1
              · rw [List.mem_singleton.mp h1, hc]; exact hcw
          · exact lineLen_single part attr
          · omega
    · simp only [hover, if_false, Bool.false_eq_true]
      apply ih
      · exact hl
      · rw [lineLen_append, hc, lineLen_single]
      · omega

/-! Shape of the hard split when the oversized token starts on a fresh line. -/

lemma tokenizeAux_nil' : ∀ fuel, tokenizeAux fuel [] = [] := by
  intro fuel; cases fuel <;> rfl

lemma tokenize_single (t : List Char) (ht : t ≠ [])
    (hns : ∀ c ∈ t, isSpaceChar c = false) : tokenize t = [t] := by
  cases t with
  | nil => contradiction
  | cons c cs =>
    have hc := hns c (List.mem_cons_self c cs)
    have htake : cs.takeWhile (fun d => isSpaceChar d == isSpaceChar c) = cs := by
      simp [hc]
      intro x hx
      exact hns x (List.mem_cons_of_mem c hx)
    have hdrop : cs.dropWhile (fun d => isSpaceChar d == isSpaceChar c) = [] := by
      simp [hc]
      intro x hx
      exact hns x (List.mem_cons_of_mem c hx)
    show tokenizeAux (cs.length + 1) (c :: cs) = [c :: cs]
    simp only [tokenizeAux, htake, hdrop, tokenizeAux_nil']

lemma isSpaceTok_false (t : List Char) (ht : t ≠ [])
    (hns : ∀ c ∈ t, isSpaceChar c = false) : isSpaceTok t = false := by
  cases t with
  | nil => contradiction
  | cons c cs =>
    have := hns c (by simp)
    simp [isSpaceTok, this]

lemma hardSplit_shape (width attr : Nat) (hw : 1 ≤ width) :
    ∀ fuel (part : List Char) (lines : List StyledLine), part ≠ [] → part.length ≤ fuel →
      hardSplit fuel width attr part lines [] 0 =
        (lines ++ ((chunksOf width part).dropLast.map (fun c => ([(c, attr)] : StyledLine))),
          [((chunksOf width part).getLastD [], attr)],
          ((chunksOf width part).getLastD []).length) := by
  intro fuel
  induction fuel with
  | zero =>
    intro part lines hp hf
    cases part with
    | nil => contradiction
    | cons c cs => simp at hf
  | succ n ih =>
    intro part lines hp hf
    have hpe : part.isEmpty = false := by
      cases part with
      | nil => contradiction
      | cons c cs => rfl
    have hplen : 0 < part.length := by
      cases part with
      | nil => contradiction
      | cons c cs => simp
    have hnoflush : ¬ (width ≤ 0) := by omega
    simp only [hardSplit, hpe, if_false, Bool.false_eq_true, hnoflush, decide_False,
      Nat.sub_zero, Nat.zero_add, List.nil_append]
    by_cases hdone : (part.drop width).isEmpty
    · simp only [hdone, if_true]
      have hdrop : part.drop width = [] := by
        cases hE : part.drop width with
        | nil => rfl
        | cons x xs => rw [hE] at hdone; simp at hdone
      have hlen : part.length ≤ width := by
        rw [List.drop_eq_nil_iff] at hdrop
        exact hdrop
      have htake : part.take width = part := List.take_of_length_le hlen
      have hchunks : chunksOf width part = [part] := by
        rw [chunksOf_cons width hw part hp, hdrop, chunksOf_nil, htake]
      rw [hchunks]
      simp [htake]
    · simp only [hdone, if_false, Bool.false_eq_true]
      have hne : part.drop width ≠ [] := by
        cases hE : part.drop width with
        | nil => rw [hE] at hdone; simp at hdone
        | cons x xs => simp
      have hlt : width < part.length := by
        by_contra hcontra
        push_neg at hcontra
        rw [List.drop_eq_nil_iff.mpr hcontra] at hne
        exact hne rfl
      rw [ih (part.drop width) (lines ++ [[(part.take width, attr)]]) hne (by
        simp only [List.length_drop]
        omega)]
      have hcne := chunksOf_ne_nil width hw (part.drop width) hne
      rw [chunksOf_cons width hw part hp]
      rw [dropLast_cons_ne _ _ hcne]
      have hgl : (part.take width :: chunksOf width (part.drop width)).getLastD [] =
          (chunksOf width (part.drop width)).getLastD [] := by
        cases hE : chunksOf width (part.drop width) with
        | nil => exact absurd hE hcne
        | cons x xs =>
          show (x :: xs).getLastD (part.take width) = (x :: xs).getLastD []
          exact getLastD_indep x (part.take width) [] xs
      rw [hgl]
      simp [List.append_assoc]

/-- The wrap of a single whitespace-free token longer than the width is
exactly the ceiling decomposition into `width`-character chunks. -/
lemma wrap_single_long (t : List Char) (attr width : Nat) (hw : 1 ≤ width)
    (ht : t ≠ []) (hns : ∀ c ∈ t, isSpaceChar c = false) (hlong : width < t.length) :
    wrap_styled_text [(t, attr)] width =
      (chunksOf width t).map (fun c => ([(c, attr)] : StyledLine)) := by
  unfold wrap_styled_text
  simp only [List.isEmpty_cons, if_false, Bool.false_eq_true]
  have hparts : ([(t, attr)].map (fun s => (tokenize s.1).map (fun p => (p, s.2)))).flatten
      = [(t, attr)] := by
    simp [tokenize_single t ht hns]
  rw [hparts]
  have hover : width < 0 + t.length := by omega
  have hsp := isSpaceTok_false t ht hns
  simp only [wrapLoop, hover, if_true, hsp, if_false, Bool.false_eq_true, hlong]
  rw [hardSplit_shape width attr hw t.length t [] ht le_rfl]
  simp only [wrapLoop, List.nil_append]
  have hcne := chunksOf_ne_nil width hw t ht
  have hlast : ([((chunksOf width t).getLastD [], attr)] : StyledLine).isEmpty = false := rfl
  simp only [hlast, if_false, Bool.false_eq_true]
  have := dropLast_append_getLastD ([] : List Char) (chunksOf width t) hcne
  calc (chunksOf width t).dropLast.map (fun c => ([(c, attr)] : StyledLine))
        ++ [[((chunksOf width t).getLastD [], attr)]]
      = ((chunksOf width t).dropLast ++ [(chunksOf width t).getLastD []]).map
          (fun c => ([(c, attr)] : StyledLine)) := by simp
    _ = (chunksOf width t).map (fun c => ([(c, attr)] : StyledLine)) := by rw [this]

/-- Every line produced by `wrap_styled_text` has rendered length at most the
width, for any input segments and any width ≥ 1. -/
lemma wrap_lines_le (segments : List Run) (width : Nat) (hw : 1 ≤ width) :
    ∀ l ∈ wrap_styled_text segments width, lineLen l ≤ width := by
  intro l hl
  unfold wrap_styled_text at hl
  by_cases hs : segments.isEmpty
  · simp [hs] at hl
  · simp only [hs, if_false, Bool.false_eq_true] at hl
    obtain ⟨h1, h2, h3⟩ := wrapLoop_inv width hw
      ((segments.map (fun s => (tokenize s.1).map (fun p => (p, s.2)))).flatten) [] [] 0
      (by intro x hx; simp at hx) rfl (by omega)
    by_cases hc : (wrapLoop
        ((segments.map (fun s => (tokenize s.1).map (fun p => (p, s.2)))).flatten)
        width [] [] 0).2.1.isEmpty
    · simp only [hc, if_true] at hl
      exact h1 l hl
    · simp only [hc, if_false, Bool.false_eq_true] at hl
      rcases List.mem_append.mp hl with hm | hm
      · exact h1 l hm
      · rw [List.mem_singleton.mp hm, h2]
        exact h3

/-- Claim C3 (amended).  For every list of styled runs and every width ≥ 1,
each line produced by `wrap_styled_text` has total character length ≤ width —
unconditionally, including through hard splits.  A whitespace-free token
longer than the width that constitutes the whole input (and therefore starts
at the beginning of a line) is hard-split into ceil(len/width) fragments, each
fragment exactly `width` characters except the last.  (The original claim's
fragment shape is false when the oversized token starts mid-line: the first
fragment then only fills the remaining space of the current line; see the
counterexample.) -/
theorem C3_wrap_invariant (segments : List Run) (width : Nat) (t : List Char) (attr : Nat) :
    (1 ≤ width → ∀ l ∈ wrap_styled_text segments width, lineLen l ≤ width) ∧
      (1 ≤ width → t ≠ [] → (∀ c ∈ t, isSpaceChar c = false) → width < t.length →
        wrap_styled_text [(t, attr)] width =
            (chunksOf width t).map (fun c => ([(c, attr)] : StyledLine)) ∧
          (chunksOf width t).length = (t.length + width - 1) / width ∧
          (∀ c ∈ (chunksOf width t).dropLast, c.length = width) ∧
          (∀ c ∈ chunksOf width t, c.length ≤ width)) := by
  constructor
  · intro hw
    exact wrap_lines_le segments width hw
  · intro hw ht hns hlong
    exact ⟨wrap_single_long t attr width hw ht hns hlong, chunksOf_length width hw t,
      chunksOf_dropLast_len width hw t, chunksOf_len_le width hw t⟩

/-- Witness for C3: the amended theorem applied at concrete inputs.  Width 5
over a two-token input, and the full ceiling split of a 7-character token at
width 3. -/
theorem C3_wrap_invariant_witness :
    (∀ l ∈ wrap_styled_text [("hello world".toList, 0)] 5, lineLen l ≤ 5) ∧
      wrap_styled_text [("aaaaaaa".toList, 3)] 3 =
        (chunksOf 3 ("aaaaaaa".toList)).map (fun c => ([(c, 3)] : StyledLine)) := by
  constructor
  · exact (C3_wrap_invariant [("hello world".toList, 0)] 5 [] 0).1 (by omega)
  · exact ((C3_wrap_invariant [] 3 ("aaaaaaa".toList) 3).2 (by omega) (by decide)
      (by decide) (by decide)).1

/-- Claim C3 counterexample.  At width 10, the input consisting of the runs
of "abc " followed by a 20-character whitespace-free token is wrapped so that
the token is split into fragments of 6, 10 and 4 characters: the first
fragment only fills the space remaining on the current line.  The claim
predicts ceil(20/10) = 2 fragments, each exactly the width except the last,
i.e. fragment lengths [10, 10]; the code produces [6, 10, 4]. -/
theorem C3_counterexample :
    wrap_styled_text [("abc cccccccccccccccccccc".toList, 0)] 10 =
        [[("abc".toList, 0), (" ".toList, 0), ("cccccc".toList, 0)],
         [("cccccccccc".toList, 0)],
         [("cccc".toList, 0)]] ∧
      ((wrap_styled_text [("abc cccccccccccccccccccc".toList, 0)] 10).flatten.filter
          (fun r => r.1.headD ' ' == 'c')).map (fun r => r.1.length) = [6, 10, 4] ∧
      (20 + 10 - 1) / 10 = 2 ∧ ([6, 10, 4] : List Nat) ≠ [10, 10] := by
  exact ⟨by decide, by decide, by decide, by decide⟩

/-! Inline markdown parsing: `parse_inline` of src/md_renderer.py lines 5
to 31.  The combined regex
`(\*\*.*?\*\*|__.*?__|` + "`" + `.*?` + "`" + `|\*.*?\*|_.*?_)` is embedded
directly: Python's `re` scans positions left to right, at each position tries
the five alternatives in order, and the lazy `.*?` takes the shortest middle
that does not contain a newline. -/

/-- Least offset at which `close` occurs, scanning left to right, failing on a
newline before the closing delimiter (the regex `.` does not match `\n`). -/
def findClose (close : List Char) : List Char → Option Nat
  | [] => if startsWithChars close [] then some 0 else none
  | c :: cs =>
    if startsWithChars close (c :: cs) then some 0
    else if c == '\n' then none
    else (findClose close cs).map (fun k => k + 1)

/-- Match one delimiter alternative (the opening and closing delimiters are
the same string for all five alternatives) at the start of `cs`; returns the
total length of the matched span. -/
def matchDelim (d : List Char) (cs : List Char) : Option Nat :=
  if startsWithChars d cs then
    (findClose d (cs.drop d.length)).map (fun k => d.length + k + d.length)
  else none

/-- Try the five alternatives of the combined inline regex in their written
order (bold before italic, as the source comment requires). -/
def tryInline (cs : List Char) : Option Nat :=
  match matchDelim ['*', '*'] cs with
  | some n => some n
  | none =>
  match matchDelim ['_', '_'] cs with
  | some n => some n
  | none =>
  match matchDelim ['`'] cs with
  | some n => some n
  | none =>
  match matchDelim ['*'] cs with
  | some n => some n
  | none => matchDelim ['_'] cs

/-- The leftmost match of the inline regex: (text before, matched text, text
after), or none if the regex does not match anywhere. -/
def scanNext : List Char → Option (List Char × List Char × List Char)
  | [] => none
  | c :: cs =>
    match tryInline (c :: cs) with
    | some n => some ([], (c :: cs).take n, (c :: cs).drop n)
    | none =>
      match scanNext cs with
      | some (pre, m, post) => some (c :: pre, m, post)
      | none => none

/-- Python slice `m[2:-2]`. -/
def pySlice2 (m : List Char) : List Char := (m.drop 2).take (m.length - 4)

/-- Python slice `m[1:-1]`. -/
def pySlice1 (m : List Char) : List Char := (m.drop 1).take (m.length - 2)

/-- Classification of a matched span (src/md_renderer.py lines 18 to 24):
a match starting with `**` or `__` loses two delimiter characters each side
and gains bold on top of the base attribute; a match starting with a backtick
is displayed in the fixed code colour pair, replacing the base attribute; the
remaining matches start with `*` or `_` and gain underline on top of the base
attribute. -/
def inlineSeg (m : List Char) (base : Nat) : Run :=
  if startsWithChars ['*', '*'] m || startsWithChars ['_', '_'] m then
    (pySlice2 m, base ||| A_BOLD)
  else if startsWithChars ['`'] m then (pySlice1 m, colorPair 4)
  else (pySlice1 m, base ||| A_UNDERLINE)

/-- Main loop of `parse_inline`: emit the unmatched text before each leftmost
match with the base attribute, then the classified match, then continue after
the match; trailing unmatched text keeps the base attribute.  Fuel: every
match has length ≥ 2, so fuel = length of the text is sufficient. -/
def parseInlineAux : Nat → List Char → Nat → List Run
  | 0, cs, base => if cs.isEmpty then [] else [(cs, base)]
  | fuel + 1, cs, base =>
    match scanNext cs with
    | none => if cs.isEmpty then [] else [(cs, base)]
    | some (pre, m, post) =>
      (if pre.isEmpty then [] else [(pre, base)]) ++
        (inlineSeg m base :: parseInlineAux fuel post base)

/-- `parse_inline(text, base_attr)` of src/md_renderer.py lines 5 to 31. -/
def parse_inline (text : List Char) (base : Nat) : List Run :=
  parseInlineAux text.length text base

-- Sanity checks against the source behaviour.
example : parse_inline ("Some **bold** text and `code`.".toList) 0 =
    [("Some ".toList, 0), ("bold".toList, A_BOLD), (" text and ".toList, 0),
     ("code".toList, colorPair 4), (".".toList, 0)] := by decide
example : parse_inline ("*i* __b__".toList) 0 =
    [("i".toList, A_UNDERLINE), (" ".toList, 0), ("b".toList, A_BOLD)] := by decide
-- an unmatched ** falls back to the one-star alternative, classified bold
-- because the matched text still starts with **
example : parse_inline ("**abc*".toList) 0 =
    [("".toList, A_BOLD), ("abc*".toList, 0)] := by decide

/-- Every run produced by `parse_inline` carries the base attribute, the base
plus bold, the base plus underline, or the fixed code colour. -/
lemma parse_inline_attrs (base : Nat) :
    ∀ fuel cs, ∀ r ∈ parseInlineAux fuel cs base,
      r.2 = base ∨ r.2 = base ||| A_BOLD ∨ r.2 = base ||| A_UNDERLINE ∨
        r.2 = colorPair 4 := by
  intro fuel
  induction fuel with
  | zero =>
    intro cs r hr
    by_cases hcs : cs.isEmpty
    · simp [parseInlineAux, hcs] at hr
    · simp only [parseInlineAux, hcs, if_false, Bool.false_eq_true,
        List.mem_singleton] at hr
      subst hr
      left; rfl
  | succ n ih =>
    intro cs r hr
    simp only [parseInlineAux] at hr
    cases hscan : scanNext cs with
    | none =>
      rw [hscan] at hr
      by_cases hcs : cs.isEmpty
      · simp [hcs] at hr
      · simp only [hcs, if_false, Bool.false_eq_true, List.mem_singleton] at hr
        subst hr
        left; rfl
    | some pm =>
      obtain ⟨pre, m, post⟩ := pm
      rw [hscan] at hr
      simp only [List.mem_append, List.mem_cons] at hr
      rcases hr with hr | hr | hr
      · by_cases hpre : pre.isEmpty
        · simp [hpre] at hr
        · simp only [hpre, if_false, Bool.false_eq_true, List.mem_singleton] at hr
          subst hr
          left; rfl
      · subst hr
        unfold inlineSeg
        by_cases h1 : (startsWithChars ['*', '*'] m || startsWithChars ['_', '_'] m) = true
        · simp [h1]
        · by_cases h2 : startsWithChars ['`'] m
          · simp [h1, h2]
          · simp [h1, h2]
      · exact ih post r hr

/-! Cell truncation and table rendering: `truncate_segments` and `parse_table`
of src/md_renderer.py lines 89 to 181. -/

/-- Loop of `truncate_segments(segments, max_len)` (src/md_renderer.py lines
89 to 104) with the running length as an accumulator: copy runs while they
fit; at the first overflowing run emit `remaining-1` characters plus an
ellipsis if at least two characters of room remain, just an ellipsis if
exactly one remains, and nothing if none remains; then stop, reporting the
full limit as the resulting length. -/
def truncateAux : List Run → Nat → Nat → List Run × Nat
  | [], _, curr => ([], curr)
  | (t, a) :: rest, maxLen, curr =>
    if maxLen < curr + t.length then
      if 1 < maxLen - curr then ([(t.take (maxLen - curr - 1) ++ ['…'], a)], maxLen)
      else if maxLen - curr == 1 then ([(['…'], a)], maxLen)
      else ([], maxLen)
    else
      let r := truncateAux rest maxLen (curr + t.length)
      ((t, a) :: r.1, r.2)

/-- `truncate_segments(segments, max_len)` of src/md_renderer.py lines 89 to
104: the truncated runs and the resulting rendered length. -/
def truncate_segments (segments : List Run) (maxLen : Nat) : List Run × Nat :=
  truncateAux segments maxLen 0

/-- Recognizer for table separator rows:
Python's `re.match` of a line against `^\s*\|[ \-:|]+\|\s*$`
(src/md_renderer.py line 116).  The regex must consume the whole line, so it
is equivalent to: after stripping whitespace, the line starts and ends with a
pipe, has length at least 3, and all characters between the outer pipes are
drawn from space, hyphen, colon and pipe. -/
def isSepRow (tl : List Char) : Bool :=
  let s := pyStrip tl
  decide (3 ≤ s.length) && startsWithChars ['|'] s && startsWithChars ['|'] s.reverse &&
    ((s.drop 1).take (s.length - 2)).all
      (fun c => c == ' ' || c == '-' || c == ':' || c == '|')

/-- Cell extraction from one table line (src/md_renderer.py lines 116 to
122): separator rows are dropped; otherwise split on pipes, strip each cell,
drop an empty leading cell and an empty trailing cell (the outer pipes), and
keep the row only if any cells remain. -/
def parseRow (tl : List Char) : Option (List (List Char)) :=
  if isSepRow tl then none
  else
    let cols0 := (tl.splitOn '|').map pyStrip
    let cols1 := match cols0 with
      | [] :: rest => rest
      | l => l
    let cols2 := match cols1.getLast? with
      | some [] => cols1.dropLast
      | _ => cols1
    if cols2.isEmpty then none else some cols2

/-- The contiguous run of pipe-prefixed lines consumed by `parse_table`
(src/md_renderer.py lines 108 to 112). -/
def tableLines (lns : List (List Char)) : List (List Char) :=
  lns.takeWhile (fun l => startsWithChars ['|'] (pyStrip l))

/-- rows_raw of `parse_table` (lines 114 to 122). -/
def tableRowsRaw (lns : List (List Char)) : List (List (List Char)) :=
  (tableLines lns).filterMap parseRow

/-- rows_segments of `parse_table` (lines 127 to 131): every cell parsed with
inline markdown. -/
def tableRowsSegments (lns : List (List Char)) (base : Nat) :
    List (List (List Run)) :=
  (tableRowsRaw lns).map (fun r => r.map (fun cell => parse_inline cell base))

/-- num_cols of `parse_table` (line 133): the maximum row length. -/
def tableNumCols (lns : List (List Char)) (base : Nat) : Nat :=
  ((tableRowsSegments lns base).map List.length).foldl max 0

/-- col_widths before shrinking (lines 134 to 138): per column, the maximum
rendered cell width over all rows. -/
def tableColWidths (lns : List (List Char)) (base : Nat) : List Nat :=
  (List.range (tableNumCols lns base)).map (fun j =>
    (tableRowsSegments lns base).foldl (fun acc r =>
      match r[j]? with
      | some cell => max acc (lineLen cell)
      | none => acc) 0)

/-- The proportional shrink of `parse_table` (lines 140 to 149).  Python
computes `available = width - num_cols*3 - 1` as a possibly negative int and
raises it to `num_cols*3` when it is smaller; for a nonempty width list the
truncating Nat subtraction below takes the same branch and produces the same
value as the Python code. -/
def shrinkWidths (ws : List Nat) (width : Nat) : List Nat :=
  let n := ws.length
  let totalW := ws.sum + n * 3 + 1
  if width < totalW then
    let avail0 := width - n * 3 - 1
    let avail := if avail0 < n * 3 then n * 3 else avail0
    if 0 < ws.sum then ws.map (fun w => max 1 (w * avail / ws.sum)) else ws
  else ws

/-- The final column widths used by the table renderer. -/
def tableFinalWidths (lns : List (List Char)) (width base : Nat) : List Nat :=
  shrinkWidths (tableColWidths lns base) width

/-- Python's str.join over a list of pieces. -/
def joinSep (sep : List Char) : List (List Char) → List Char
  | [] => []
  | [p] => p
  | p :: q :: rest => p ++ sep ++ joinSep sep (q :: rest)

/-- Horizontal table border (src/md_renderer.py lines 154 to 159): a corner,
then `w+2` dashes per column joined with the tee glyph, then a corner. -/
def borderLine (lc mc rc : Char) (ws : List Nat) : List Char :=
  [lc] ++ joinSep [mc] (ws.map (fun w => List.replicate (w + 2) '─')) ++ [rc]

/-- The per-column payload of a rendered cell row (src/md_renderer.py lines
165 to 174): a space, the truncated cell, padding up to the column width, a
space and a pipe; a missing cell is treated as empty. -/
def renderCells (base : Nat) : List Nat → List (List Run) → StyledLine
  | [], _ => []
  | w :: ws, cells =>
    let tr := truncate_segments (cells.headD []) w
    ([([' '], base)] ++ tr.1 ++
        (if tr.2 < w then [(List.replicate (w - tr.2) ' ', base)] else []) ++
        [([' '], base), (['│'], colorPair 6)]) ++
      renderCells base ws (cells.drop 1)

/-- One rendered table row (src/md_renderer.py lines 163 to 175). -/
def renderRow (ws : List Nat) (base : Nat) (cells : List (List Run)) : StyledLine :=
  (['│'], colorPair 6) :: renderCells base ws cells

/-- `parse_table(lines, start_idx, width, base_color_pair)` of
src/md_renderer.py lines 106 to 181, in list form: the rendered lines and the
number of input lines consumed (the source advances its index by this
count).  A header separator rule is inserted after the first row when the
table has more than one row. -/
def parse_table (lns : List (List Char)) (width base : Nat) :
    List StyledLine × Nat :=
  let consumed := (tableLines lns).length
  let rows := tableRowsSegments lns base
  if rows.isEmpty then ([], consumed)
  else
    let ws := tableFinalWidths lns width base
    let top : StyledLine := [(borderLine '┌' '┬' '┐' ws, colorPair 6)]
    let mid : StyledLine := [(borderLine '├' '┼' '┤' ws, colorPair 6)]
    let bot : StyledLine := [(borderLine '└' '┴' '┘' ws, colorPair 6)]
    let body :=
      match rows with
      | [] => []
      | r0 :: rest =>
        if rest.isEmpty then [renderRow ws base r0]
        else renderRow ws base r0 :: mid :: rest.map (renderRow ws base)
    (top :: (body ++ [bot]), consumed)

-- Sanity checks against the source behaviour.
example : tableRowsRaw [("| a | b |".toList), ("|---|---|".toList),
    ("| c | d |".toList)] = [["a".toList, "b".toList], ["c".toList, "d".toList]] := by
  decide
example : tableFinalWidths [("|aaaaaaaaaaaaaaaaaaaa|b|c|".toList)] 20 0 = [9, 1, 1] := by
  decide
example : (parse_table [("| a |".toList)] 80 0).2 = 1 := by decide
example : truncate_segments [("abcdef".toList, 0)] 4 = ([("abc".toList ++ ['…'], 0)], 4) := by
  decide

/-! Length accounting for the rendered table. -/

lemma truncateAux_len :
    ∀ segs maxLen curr, curr ≤ maxLen →
      lineLen (truncateAux segs maxLen curr).1 + curr = (truncateAux segs maxLen curr).2 ∧
        (truncateAux segs maxLen curr).2 ≤ maxLen := by
  intro segs
  induction segs with
  | nil =>
    intro maxLen curr hc
    exact ⟨by simp [truncateAux, lineLen], hc⟩
  | cons seg rest ih =>
    obtain ⟨t, a⟩ := seg
    intro maxLen curr hc
    simp only [truncateAux]
    by_cases hover : maxLen < curr + t.length
    · simp only [hover, if_true]
      by_cases h2 : 1 < maxLen - curr
      · simp only [h2, if_true]
        have htl : maxLen - curr - 1 ≤ t.length := by omega
        constructor
        · simp only [lineLen, List.map_cons, List.map_nil, List.sum_cons, List.sum_nil,
            List.length_append, List.length_take, List.length_singleton]
          omega
        · exact le_rfl
      · simp only [h2, if_false, Bool.false_eq_true]
        by_cases h1 : maxLen - curr = 1
        · simp only [h1, beq_self_eq_true, if_true]
          constructor
          · simp only [lineLen, List.map_cons, List.map_nil, List.sum_cons, List.sum_nil,
              List.length_singleton]
            omega
          · exact le_rfl
        · have h1' : (maxLen - curr == 1) = false := by
            simp only [beq_eq_false_iff_ne, ne_eq]
            exact h1
          simp only [h1', if_false, Bool.false_eq_true]
          constructor
          · simp only [lineLen, List.map_nil, List.sum_nil]
            omega
          · exact le_rfl
    · simp only [hover, if_false]
      have hrec := ih maxLen (curr + t.length) (by omega)
      constructor
      · simp only [lineLen, List.map_cons, List.sum_cons]
        simp only [lineLen] at hrec
        omega
      · exact hrec.2

lemma truncate_len (segs : List Run) (maxLen : Nat) :
    lineLen (truncate_segments segs maxLen).1 = (truncate_segments segs maxLen).2 ∧
      (truncate_segments segs maxLen).2 ≤ maxLen := by
  have h := truncateAux_len segs maxLen 0 (by omega)
  unfold truncate_segments
  exact ⟨by omega, h.2⟩

lemma div_add_div_le (a b T : Nat) (hT : 0 < T) : a / T + b / T ≤ (a + b) / T := by
  rw [Nat.le_div_iff_mul_le hT]
  calc (a / T + b / T) * T = a / T * T + b / T * T := by ring
    _ ≤ a + b := Nat.add_le_add (Nat.div_mul_le_self a T) (Nat.div_mul_le_self b T)

lemma sum_div_le (A T : Nat) (hT : 0 < T) :
    ∀ ws : List Nat, ((ws.map (fun w => w * A / T)).sum) ≤ ws.sum * A / T := by
  intro ws
  induction ws with
  | nil => simp
  | cons w ws ih =>
    simp only [List.map_cons, List.sum_cons]
    calc w * A / T + ((ws.map (fun w => w * A / T)).sum)
        ≤ w * A / T + ws.sum * A / T := by omega
      _ ≤ (w * A + ws.sum * A) / T := div_add_div_le _ _ _ hT
      _ = (w + ws.sum) * A / T := by ring_nf

lemma sum_map_addK (k : Nat) :
    ∀ ws : List Nat, (ws.map (fun w => w + k)).sum = ws.sum + k * ws.length := by
  intro ws
  induction ws with
  | nil => simp
  | cons w ws ih =>
    simp only [List.map_cons, List.sum_cons, List.length_cons, ih]
    ring

lemma sum_map_succ {α : Type} (f : α → Nat) :
    ∀ l : List α, (l.map (fun x => f x + 1)).sum = (l.map f).sum + l.length := by
  intro l
  induction l with
  | nil => simp
  | cons x l ih =>
    simp only [List.map_cons, List.sum_cons, List.length_cons, ih]
    ring

lemma shrink_sum_le (ws : List Nat) (A : Nat) (hT : 0 < ws.sum) :
    ((ws.map (fun w => max 1 (w * A / ws.sum))).sum) ≤ A + ws.length := by
  have hle : ((ws.map (fun w => max 1 (w * A / ws.sum))).sum) ≤
      ((ws.map (fun w => w * A / ws.sum + 1)).sum) :=
    List.sum_le_sum (fun w _ => max_le (Nat.le_add_left 1 _) (Nat.le_succ _))
  have heq := sum_map_succ (fun w => w * A / ws.sum) ws
  have hdiv := sum_div_le A ws.sum hT ws
  have hcancel : ws.sum * A / ws.sum = A := Nat.mul_div_cancel_left A hT
  omega

lemma shrink_length (ws : List Nat) (width : Nat) :
    (shrinkWidths ws width).length = ws.length := by
  unfold shrinkWidths
  by_cases h1 : width < ws.sum + ws.length * 3 + 1
  · simp only [h1, if_true]
    by_cases h2 : 0 < ws.sum
    · simp [h2]
    · simp [h2]
  · simp [h1]

lemma shrink_ge_one (ws : List Nat) (width : Nat)
    (hshrink : width < ws.sum + ws.length * 3 + 1) (hT : 0 < ws.sum) :
    ∀ w ∈ shrinkWidths ws width, 1 ≤ w := by
  intro w hw
  unfold shrinkWidths at hw
  simp only [hshrink, if_true, hT] at hw
  rcases List.mem_map.mp hw with ⟨x, _, rfl⟩
  exact le_max_left 1 _

lemma shrink_sum_bound (ws : List Nat) (width : Nat)
    (hw6 : 6 * ws.length + 1 ≤ width) :
    (shrinkWidths ws width).sum + 3 * ws.length + 1 ≤ width + ws.length := by
  unfold shrinkWidths
  by_cases hshrink : width < ws.sum + ws.length * 3 + 1
  · simp only [hshrink, if_true]
    by_cases hT : 0 < ws.sum
    · simp only [hT, if_true]
      have hge : ¬ (width - ws.length * 3 - 1 < ws.length * 3) := by omega
      simp only [hge, if_false]
      have := shrink_sum_le ws (width - ws.length * 3 - 1) hT
      omega
    · exfalso
      omega
  · simp only [hshrink, if_false]
    omega

lemma joinSep_len (m : Char) :
    ∀ parts : List (List Char), parts ≠ [] →
      (joinSep [m] parts).length + 1 = (parts.map List.length).sum + parts.length := by
  intro parts
  induction parts with
  | nil => intro h; contradiction
  | cons p rest ih =>
    intro _
    cases rest with
    | nil => simp [joinSep]
    | cons q rest' =>
      have h2 := ih (by simp)
      show (p ++ [m] ++ joinSep [m] (q :: rest')).length + 1 = _
      simp only [List.length_append, List.map_cons, List.sum_cons,
        List.length_cons, List.length_singleton, List.length_nil]
      simp only [List.map_cons, List.sum_cons, List.length_cons] at h2
      omega

lemma borderLine_len (lc mc rc : Char) (ws : List Nat) (hne : ws ≠ []) :
    (borderLine lc mc rc ws).length = ws.sum + 3 * ws.length + 1 := by
  unfold borderLine
  have hmap : ((ws.map (fun w => List.replicate (w + 2) '─')).map List.length).sum
      = ws.sum + 2 * ws.length := by
    rw [List.map_map]
    have hco : (List.length ∘ fun w => List.replicate (w + 2) '─') =
        fun w => w + 2 := by
      funext w
      simp
    rw [hco, sum_map_addK]
  have hj := joinSep_len mc (ws.map (fun w => List.replicate (w + 2) '─')) (by
    simp [hne])
  rw [hmap] at hj
  simp only [List.length_map] at hj
  simp only [List.length_append, List.length_singleton]
  omega

lemma renderCells_len (base : Nat) :
    ∀ ws cells, lineLen (renderCells base ws cells) = ws.sum + 3 * ws.length := by
  intro ws
  induction ws with
  | nil =>
    intro cells
    simp [renderCells, lineLen]
  | cons w ws ih =>
    intro cells
    simp only [renderCells]
    rw [lineLen_append, ih]
    have htr := truncate_len (cells.headD []) w
    by_cases hpad : (truncate_segments (cells.headD []) w).2 < w
    · simp only [hpad, if_true]
      rw [lineLen_append, lineLen_append, lineLen_append]
      simp only [lineLen, List.map_cons, List.map_nil, List.sum_cons, List.sum_nil,
        List.length_singleton, List.length_replicate, List.length_cons, List.sum_cons,
        List.length_nil]
      simp only [lineLen] at htr
      omega
    · simp only [hpad, if_false]
      rw [lineLen_append, lineLen_append, lineLen_append]
      simp only [lineLen, List.map_cons, List.map_nil, List.sum_cons, List.sum_nil,
        List.length_singleton, List.length_cons, List.sum_cons, List.length_nil]
      simp only [lineLen] at htr
      omega

lemma renderRow_len (ws : List Nat) (base : Nat) (cells : List (List Run)) :
    lineLen (renderRow ws base cells) = ws.sum + 3 * ws.length + 1 := by
  unfold renderRow
  have h := renderCells_len base ws cells
  simp only [lineLen, List.map_cons, List.sum_cons, List.length_singleton] at h ⊢
  omega

lemma parse_table_lineLen (lns : List (List Char)) (width base : Nat)
    (hne : tableFinalWidths lns width base ≠ []) :
    ∀ l ∈ (parse_table lns width base).1,
      lineLen l = (tableFinalWidths lns width base).sum +
        3 * (tableFinalWidths lns width base).length + 1 := by
  intro l hl
  unfold parse_table at hl
  by_cases hrows : (tableRowsSegments lns base).isEmpty
  · simp [hrows] at hl
  · simp only [hrows, if_false, Bool.false_eq_true] at hl
    cases hrv : tableRowsSegments lns base with
    | nil =>
      rw [hrv] at hrows
      simp at hrows
    | cons r0 rest =>
      rw [hrv] at hl
      have hb : ∀ lc mc rc, lineLen [(borderLine lc mc rc
          (tableFinalWidths lns width base), colorPair 6)] =
          (tableFinalWidths lns width base).sum +
            3 * (tableFinalWidths lns width base).length + 1 := by
        intro lc mc rc
        simp only [lineLen, List.map_cons, List.map_nil, List.sum_cons, List.sum_nil]
        rw [borderLine_len lc mc rc _ hne]
        omega
      by_cases hrest : rest.isEmpty
      · simp only [hrest, if_true] at hl
        rcases List.mem_cons.mp hl with rfl | hl2
        · exact hb _ _ _
        · rcases List.mem_append.mp hl2 with h3 | h3
          · rw [List.mem_singleton.mp h3]
            exact renderRow_len _ base r0
          · rw [List.mem_singleton.mp h3]
            exact hb _ _ _
      · simp only [hrest, if_false, Bool.false_eq_true] at hl
        rcases List.mem_cons.mp hl with rfl | hl2
        · exact hb _ _ _
        · rcases List.mem_append.mp hl2 with h3 | h3
          · rcases List.mem_cons.mp h3 with rfl | h4
            · exact renderRow_len _ base r0
            · rcases List.mem_cons.mp h4 with rfl | h5
              · exact hb _ _ _
              · rcases List.mem_map.mp h5 with ⟨r, _, rfl⟩
                exact renderRow_len _ base r
          · rw [List.mem_singleton.mp h3]
            exact hb _ _ _

lemma parseRow_ne_nil (tl : List Char) (r : List (List Char))
    (h : parseRow tl = some r) : r ≠ [] := by
  unfold parseRow at h
  by_cases h1 : isSepRow tl
  · simp [h1] at h
  · simp only [h1, if_false, Bool.false_eq_true] at h
    split at h
    · exact absurd h (by simp)
    · rename_i hE
      rw [Option.some.injEq] at h
      subst h
      intro hr
      rw [hr] at hE
      simp at hE

lemma foldl_max_ge_seed : ∀ (l : List Nat) (a : Nat), a ≤ l.foldl max a := by
  intro l
  induction l with
  | nil => intro a; exact le_rfl
  | cons y l ih =>
    intro a
    calc a ≤ max a y := le_max_left a y
      _ ≤ l.foldl max (max a y) := ih (max a y)

lemma foldl_max_ge_mem : ∀ (l : List Nat) (a : Nat), ∀ x ∈ l, x ≤ l.foldl max a := by
  intro l
  induction l with
  | nil => intro a x hx; simp at hx
  | cons y l ih =>
    intro a x hx
    rcases List.mem_cons.mp hx with rfl | hx
    · calc x ≤ max a x := le_max_right a x
        _ ≤ l.foldl max (max a x) := foldl_max_ge_seed l (max a x)
    · exact ih (max a y) x hx

lemma tableNumCols_pos (lns : List (List Char)) (base : Nat)
    (hrows : tableRowsSegments lns base ≠ []) : 1 ≤ tableNumCols lns base := by
  unfold tableNumCols
  unfold tableRowsSegments at hrows ⊢
  cases hrv : tableRowsRaw lns with
  | nil =>
    rw [hrv] at hrows
    simp at hrows
  | cons raw0 rawrest =>
    have hmem : raw0 ∈ tableRowsRaw lns := by
      rw [hrv]
      exact List.mem_cons_self raw0 rawrest
    have hraw0 : raw0 ≠ [] := by
      unfold tableRowsRaw at hmem
      rcases List.mem_filterMap.mp hmem with ⟨tl, _, hp⟩
      exact parseRow_ne_nil tl raw0 hp
    simp only [List.map_cons]
    have hlen : 1 ≤ (raw0.map (fun cell => parse_inline cell base)).length := by
      rw [List.length_map]
      cases raw0 with
      | nil => exact absurd rfl hraw0
      | cons x xs => simp
    calc 1 ≤ (raw0.map (fun cell => parse_inline cell base)).length := hlen
      _ ≤ _ := foldl_max_ge_mem _ 0 _ (List.mem_cons_self _ _)

lemma tableColWidths_length (lns : List (List Char)) (base : Nat) :
    (tableColWidths lns base).length = tableNumCols lns base := by
  unfold tableColWidths
  simp

lemma tableFinalWidths_ne_nil (lns : List (List Char)) (width base : Nat)
    (hrows : ¬ (tableRowsSegments lns base).isEmpty) :
    tableFinalWidths lns width base ≠ [] := by
  have h1 : tableRowsSegments lns base ≠ [] := by
    intro h
    rw [h] at hrows
    simp at hrows
  have h2 := tableNumCols_pos lns base h1
  unfold tableFinalWidths
  intro hE
  have := shrink_length (tableColWidths lns base) width
  rw [hE] at this
  rw [tableColWidths_length] at this
  simp at this
  omega

/-- Claim C4 (amended).  Column widths after the proportional shrink are
always ≥ 1 (whenever the shrink actually runs, i.e. the natural width
overflows and some cell is nonempty); every rendered table line has width
`sum of final column widths + 3·cols + 1`, which, whenever the requested
width is at least `6·cols + 1`, is at most `requested width + cols` (the
per-column floor of 1 can push the total up to one extra cell per column
beyond the requested width); and a single-run cell that overflows a positive
column width is truncated to end in a single ellipsis.  (The original claim
fails on all three counts at the boundaries exhibited by the
counterexample.) -/
theorem C4_table_invariant (lns : List (List Char)) (width base : Nat)
    (t : List Char) (a m : Nat) :
    (width < (tableColWidths lns base).sum + (tableColWidths lns base).length * 3 + 1 →
      0 < (tableColWidths lns base).sum →
      ∀ w ∈ tableFinalWidths lns width base, 1 ≤ w) ∧
    (6 * (tableColWidths lns base).length + 1 ≤ width →
      ∀ l ∈ (parse_table lns width base).1,
        lineLen l ≤ width + (tableColWidths lns base).length) ∧
    (1 ≤ m → m < t.length →
      truncate_segments [(t, a)] m = ([(t.take (m - 1) ++ ['…'], a)], m)) := by
  refine ⟨?_, ?_, ?_⟩
  · intro hshrink hT
    exact shrink_ge_one (tableColWidths lns base) width hshrink hT
  · intro hw6 l hl
    by_cases hrows : (tableRowsSegments lns base).isEmpty
    · unfold parse_table at hl
      simp [hrows] at hl
    · have hne := tableFinalWidths_ne_nil lns width base hrows
      have hlen := parse_table_lineLen lns width base hne l hl
      have hsl : (tableFinalWidths lns width base).length =
          (tableColWidths lns base).length := shrink_length _ _
      have hbound := shrink_sum_bound (tableColWidths lns base) width hw6
      unfold tableFinalWidths at hlen hsl
      omega
  · intro hm hlt
    unfold truncate_segments truncateAux
    have hover : m < 0 + t.length := by omega
    simp only [hover, if_true, Nat.sub_zero]
    by_cases h2 : 1 < m
    · simp only [h2, if_true]
    · have h1 : m = 1 := by omega
      subst h1
      simp

/-- Witness for C4: the amended theorem applied at the one-row table
`|aaaaaaaaaaaaaaaaaaaa|b|c|` with requested width 20 (which shrinks the
columns to [9, 1, 1], so every rendered line has width 21 ≤ 20 + 3), and at
a single-run cell of 7 characters truncated to width 4. -/
theorem C4_table_invariant_witness :
    (∀ w ∈ tableFinalWidths [("|aaaaaaaaaaaaaaaaaaaa|b|c|".toList)] 20 0, 1 ≤ w) ∧
      (∀ l ∈ (parse_table [("|aaaaaaaaaaaaaaaaaaaa|b|c|".toList)] 20 0).1,
        lineLen l ≤ 20 + (tableColWidths [("|aaaaaaaaaaaaaaaaaaaa|b|c|".toList)] 0).length) ∧
      truncate_segments [("toolong".toList, 5)] 4 = ([("too".toList ++ ['…'], 5)], 4) := by
  refine ⟨(C4_table_invariant [("|aaaaaaaaaaaaaaaaaaaa|b|c|".toList)] 20 0 [] 0 0).1
      (by decide) (by decide),
    (C4_table_invariant [("|aaaaaaaaaaaaaaaaaaaa|b|c|".toList)] 20 0 [] 0 0).2.1
      (by decide),
    (C4_table_invariant [] 0 0 ("toolong".toList) 5 4).2.2 (by decide) (by decide)⟩

/-- Claim C4 counterexample; the claim as stated fails on all three counts.
(a) For the one-row table `|aaaaaaaaaaaaaaaaaaaa|b|c|` at requested width 20,
the shrunk column widths are [9, 1, 1] (the 1-floor lifts the two narrow
columns), so every rendered line has width 9+1+1 + 3·3 + 1 = 21 > 20.
(b) For the table `|  | a |` at width 80 no shrink runs and the first column,
whose only cell is empty, keeps width 0, violating "column width ≥ 1".
(c) For `|**abcde**fgh|i|` at width 13 the first column shrinks to width 5;
its cell is the two runs "abcde" (bold) and "fgh", 8 characters > 5, but the
truncation boundary falls exactly between the runs, so the rendered cell is
"abcde" with no ellipsis. -/
theorem C4_counterexample :
    ((parse_table [("|aaaaaaaaaaaaaaaaaaaa|b|c|".toList)] 20 0).1.map lineLen =
        [21, 21, 21] ∧ ¬ (21 ≤ 20)) ∧
      (tableFinalWidths [("|  | a |".toList)] 80 0 = [0, 1] ∧ ¬ (1 ≤ (0 : Nat))) ∧
      (tableFinalWidths [("|**abcde**fgh|i|".toList)] 13 0 = [5, 1] ∧
        lineLen (parse_inline ("**abcde**fgh".toList) 0) = 8 ∧
        truncate_segments (parse_inline ("**abcde**fgh".toList) 0) 5 =
          ([("abcde".toList, A_BOLD)], 5)) := by
  refine ⟨⟨by decide, by decide⟩, ⟨by decide, by decide⟩, by decide, by decide⟩

/-! The top-level renderer `render_markdown` (src/md_renderer.py lines 183 to
263).  Its code-block branch calls Python's `textwrap.wrap`, which is
modelled below with its default options (replace_whitespace,
drop_whitespace, break_long_words); the model is exact for source lines
without tab and hyphen characters (tabs trigger tab expansion and hyphens
trigger break_on_hyphens in the CPython implementation), which is the domain
all theorems below use. -/

/-- textwrap's whitespace munging: every whitespace character becomes a
space (texts without tabs). -/
def twMunge (cs : List Char) : List Char :=
  cs.map (fun c => if isSpaceChar c then ' ' else c)

/-- textwrap's `_split` for hyphen-free text: alternating maximal space and
word chunks. -/
def twChunks (cs : List Char) : List (List Char) := tokenize (twMunge cs)

/-- The greedy packing loop inside textwrap's `_wrap_chunks`: take chunks
while they fit into the width; returns (taken chunks, remaining chunks). -/
def twGreedy (width : Nat) : Nat → List (List Char) → List (List Char) × List (List Char)
  | _, [] => ([], [])
  | curLen, c :: rest =>
    if curLen + c.length ≤ width then
      let r := twGreedy width (curLen + c.length) rest
      (c :: r.1, r.2)
    else ([], c :: rest)

/-- The outer loop of textwrap's `_wrap_chunks` with the default options:
per output line, drop one leading whitespace chunk when lines have already
been emitted, fill greedily, break a word longer than the width at the
remaining space, drop a trailing whitespace chunk, and emit the joined line
if anything remains.  Exact for `width ≥ 1` (CPython raises ValueError for
width ≤ 0).  Fuel: every iteration consumes a chunk or shortens the head
chunk, so chunk count plus total character count dominates the loop. -/
def twLoop (width : Nat) : Nat → List (List Char) → List (List Char) → List (List Char)
  | 0, _, acc => acc
  | fuel + 1, chunks, acc =>
    match chunks with
    | [] => acc
    | c0 :: rest0 =>
      let chunks1 := if (pyStrip c0).isEmpty && !acc.isEmpty then rest0 else c0 :: rest0
      let g := twGreedy width 0 chunks1
      let curLen := (g.1.map List.length).sum
      let long : Bool := match g.2 with
        | [] => false
        | r :: _ => width < r.length
      let cur1 := if long then g.1 ++ [(g.2.headD []).take (width - curLen)] else g.1
      let rem1 := if long then (g.2.headD []).drop (width - curLen) :: g.2.tail else g.2
      let cur2 := match cur1.getLast? with
        | some lastc => if (pyStrip lastc).isEmpty then cur1.dropLast else cur1
        | none => cur1
      let acc2 := if cur2.isEmpty then acc else acc ++ [cur2.flatten]
      twLoop width fuel rem1 acc2

/-- Python's `textwrap.wrap(text, width=width)` with the default options, for
tab- and hyphen-free text and `width ≥ 1`. -/
def textwrapWrap (width : Nat) (cs : List Char) : List (List Char) :=
  twLoop width ((twChunks cs).length + ((twChunks cs).map List.length).sum + 1)
    (twChunks cs) []

/-- Python's re.match of a line against `^\s*(#{1,6})\s+(.*)`
(src/md_renderer.py line 213): optional leading whitespace, one to six
hashes followed by at least one whitespace character (greedy, so the
following whitespace is removed from the content).  A run of seven or more
hashes never matches: every backtracking attempt of `#{1,6}` is followed by
a hash, not whitespace. -/
def headerMatch (line : List Char) : Option (Nat × List Char) :=
  let s := line.dropWhile isSpaceChar
  let hashes := s.takeWhile (fun c => c == '#')
  let after := s.dropWhile (fun c => c == '#')
  if decide (1 ≤ hashes.length) && decide (hashes.length ≤ 6) &&
      (after.head?.map isSpaceChar).getD false then
    some (hashes.length, after.dropWhile isSpaceChar)
  else none

/-- ASCII digit test (the model of the regex class `\d`). -/
def isDigitChar (c : Char) : Bool := decide ('0' ≤ c) && decide (c ≤ '9')

/-- Python's re.match of a line against `^(\s*)([*+-]|\d+\.)\s+(.*)`
(src/md_renderer.py line 222): captured indent, a single-character bullet or
a digits-plus-dot ordinal, at least one whitespace, then the content with the
following whitespace removed. -/
def listMatch (line : List Char) : Option (List Char × List Char × List Char) :=
  let indent := line.takeWhile isSpaceChar
  let s := line.dropWhile isSpaceChar
  let bullet? : Option (List Char × List Char) :=
    match s with
    | c :: rest =>
      if c == '*' || c == '+' || c == '-' then some ([c], rest)
      else
        let digits := s.takeWhile isDigitChar
        let afterD := s.dropWhile isDigitChar
        if !digits.isEmpty && afterD.headD ' ' == '.' then
          some (digits ++ ['.'], afterD.drop 1)
        else none
    | [] => none
  match bullet? with
  | none => none
  | some (bullet, rest) =>
    if (rest.head?.map isSpaceChar).getD false then
      some (indent, bullet, rest.dropWhile isSpaceChar)
    else none

/-- Bullet normalization (src/md_renderer.py line 226): Python's
`bullet_char in "*+-"` holds exactly for the three one-character bullets (an
ordinal like "12." is never a substring of `*+-`). -/
def normBullet (b : List Char) : List Char :=
  if b == ['*'] || b == ['+'] || b == ['-'] then ['•'] else b

/-- Python's str.ljust. -/
def ljustChars (n : Nat) (l : List Char) : List Char :=
  l ++ List.replicate (n - l.length) ' '

/-- The full-width code-colour filler line emitted around and inside code
blocks (src/md_renderer.py lines 199, 202, 208). -/
def fillerLine (width : Nat) : StyledLine := [(List.replicate width ' ', colorPair 4)]

/-- One source line inside a code fence (src/md_renderer.py lines 201 to
207): a blank line becomes one full-width filler; a nonblank line is
word-wrapped by Python's textwrap at `width-2`, each wrapped piece rendered
as one space plus the piece left-justified to `width-1`, in the code colour.
(For `width ≤ 2` CPython's textwrap raises ValueError; the theorems below
use `width ≥ 3`.) -/
def codeLine (width : Nat) (cl : List Char) : List StyledLine :=
  if (pyStrip cl).isEmpty then [fillerLine width]
  else (textwrapWrap (width - 2) cl).map
    (fun wcl => [(' ' :: ljustChars (width - 1) wcl, colorPair 4)])

/-- The rendered lines of one fenced code block (src/md_renderer.py lines
192 to 209): a filler line, the rendered source lines, a filler line. -/
def codeBlock (width : Nat) (codeLs : List (List Char)) : List StyledLine :=
  fillerLine width :: ((codeLs.map (codeLine width)).flatten ++ [fillerLine width])

/-- The paragraph-or-blank fallback branch (src/md_renderer.py lines 253 to
259): a blank line renders as one line holding a single empty run, any other
line is inline-parsed and word-wrapped at the full width. -/
def paragraphLines (width base : Nat) (line : List Char) : List StyledLine :=
  if (pyStrip line).isEmpty then [[(([] : List Char), base)]]
  else wrap_styled_text (parse_inline line base) width

/-- The main dispatch loop of `render_markdown` (src/md_renderer.py lines
188 to 261) over the list of logical lines, in source order: fenced code
block, heading, list item, table (falling through to paragraph when the
table parser yields no rows), paragraph or blank line.

Fuel: every branch consumes at least one input line (the table branch
consumes at least the pipe-prefixed line it starts from), so fuel equal to
the number of lines is exact; this is proved as claim C10.  The list branch
wraps at Python's `width - len(prefix)`, which can be negative, in which
case the source's wrap loop diverges (see `hardSplitStepInt`); the Nat
subtraction below truncates at 0 instead, so this embedding is exact
whenever `width > len(prefix)` holds for every list line of the input. -/
def render_markdown_lines (width base : Nat) : Nat → List (List Char) → List StyledLine
  | 0, _ => []
  | _ + 1, [] => []
  | fuel + 1, line :: rest =>
    if startsWithChars ("```".toList) (pyStrip line) then
      let codeLs := rest.takeWhile (fun l => !(startsWithChars ("```".toList) (pyStrip l)))
      let rest2 := (rest.dropWhile (fun l => !(startsWithChars ("```".toList) (pyStrip l)))).drop 1
      codeBlock width codeLs ++ render_markdown_lines width base fuel rest2
    else
      match headerMatch line with
      | some (level, content) =>
        [(List.replicate level '#' ++ [' '] ++ content, colorPair 5 ||| A_BOLD)] ::
          render_markdown_lines width base fuel rest
      | none =>
        match listMatch line with
        | some (indent, bullet, content) =>
          let pfx := indent ++ normBullet bullet ++ [' ']
          let wrapped := wrap_styled_text (parse_inline content base) (width - pfx.length)
          (match wrapped with
            | [] => [[(pfx, base)]]
            | w0 :: wrest =>
              ((pfx, base) :: w0) ::
                wrest.map (fun wl => (List.replicate pfx.length ' ', base) :: wl)) ++
            render_markdown_lines width base fuel rest
        | none =>
          if startsWithChars ['|'] (pyStrip line) then
            let t := parse_table (line :: rest) width base
            if !t.1.isEmpty then
              t.1 ++ render_markdown_lines width base fuel ((line :: rest).drop t.2)
            else
              paragraphLines width base line ++ render_markdown_lines width base fuel rest
          else
            paragraphLines width base line ++ render_markdown_lines width base fuel rest

/-- Python's text.split of the input on newlines. -/
def splitLines (text : List Char) : List (List Char) := text.splitOn '\n'

/-- `render_markdown(text, width, base_color_pair)` of src/md_renderer.py
lines 183 to 263. -/
def render_markdown (text : List Char) (width base : Nat) : List StyledLine :=
  render_markdown_lines width base (splitLines text).length (splitLines text)

-- Sanity checks against the source behaviour.
example : textwrapWrap 4 ("ab cd".toList) = ["ab".toList, "cd".toList] := by decide
example : textwrapWrap 4 ("abcdefghij".toList) = ["abcd".toList, "efgh".toList, "ij".toList] := by
  decide
example : render_markdown ("```\nab cd\n```".toList) 6 0 =
    [fillerLine 6, [(" ab   ".toList, colorPair 4)], [(" cd   ".toList, colorPair 4)],
      fillerLine 6] := by decide
example : render_markdown ("# Title".toList) 40 0 =
    [[("# Title".toList, colorPair 5 ||| A_BOLD)]] := by decide
example : render_markdown ("* hi".toList) 40 0 =
    [[("• ".toList, 0), ("hi".toList, 0)]] := by decide
example : render_markdown ("".toList) 40 0 = [[(([] : List Char), 0)]] := by decide

/-- Claim C7 (amended).  Inline parsing removes the delimiters of each
matched bold/italic/inline-code span; bold and italic spans gain their style
flag layered on top of the caller's base style, while an inline-code span is
rendered in the fixed code colour, which replaces the base style rather than
layering over it; unmatched text keeps the base style.  The scenario holds:
the input `"# Title\n\nSome **bold** text and `code`."` at width 40 renders
to a heading line, a blank line, and one paragraph line whose runs are plain,
bold, plain, code and a final plain period, and whose concatenated text is
the original paragraph with the markdown delimiters removed. -/
theorem C7_inline_styles (text : List Char) (base : Nat) :
    (∀ r ∈ parse_inline text base,
        r.2 = base ∨ r.2 = base ||| A_BOLD ∨ r.2 = base ||| A_UNDERLINE ∨
          r.2 = colorPair 4) ∧
      render_markdown (("# Title\n\nSome **bold** text and `code`.").toList) 40 0 =
        [[("# Title".toList, colorPair 5 ||| A_BOLD)],
         [(([] : List Char), 0)],
         [("Some".toList, 0), (" ".toList, 0), ("bold".toList, A_BOLD), (" ".toList, 0),
          ("text".toList, 0), (" ".toList, 0), ("and".toList, 0), (" ".toList, 0),
          ("code".toList, colorPair 4), (".".toList, 0)]] ∧
      (([("Some".toList, (0 : Nat)), (" ".toList, 0), ("bold".toList, A_BOLD),
          (" ".toList, 0), ("text".toList, 0), (" ".toList, 0), ("and".toList, 0),
          (" ".toList, 0), ("code".toList, colorPair 4),
          (".".toList, 0)].map (fun r => r.1)).flatten =
        ("Some bold text and code.").toList) := by
  refine ⟨?_, by decide, by decide⟩
  intro r hr
  exact parse_inline_attrs base text.length text r hr

/-- Claim C7 counterexample.  An inline-code span does not layer the code
style on top of the caller's base style: with a bold base attribute, the
code run's attribute is the bare fixed code colour, not the base combined
with it. -/
theorem C7_counterexample :
    parse_inline ("`x`".toList) A_BOLD = [("x".toList, colorPair 4)] ∧
      colorPair 4 ≠ A_BOLD ||| colorPair 4 := by
  exact ⟨by decide, by decide⟩

/-- Claim C6: the renderer is deterministic and pure.  In this embedding the
renderer is a total function of exactly its three arguments (the source's
only ambient inputs are the process-wide curses attribute constants, which
are fixed at startup and embedded as constants here), so two calls on equal
inputs yield equal outputs. -/
theorem C6_render_deterministic (t t' : List Char) (w w' b b' : Nat)
    (ht : t = t') (hw : w = w') (hb : b = b') :
    render_markdown t w b = render_markdown t' w' b' := by
  subst ht
  subst hw
  subst hb
  rfl

/-- Witness for C6 at a concrete input. -/
theorem C6_render_deterministic_witness :
    render_markdown ("Some **bold** text".toList) 10 0 =
      render_markdown ("Some **bold** text".toList) 10 0 :=
  C6_render_deterministic _ _ _ _ _ _ rfl rfl rfl

lemma render_lines_nil (width base : Nat) :
    ∀ fuel, render_markdown_lines width base fuel [] = [] := by
  intro fuel
  cases fuel <;> rfl

/-- Claim C5 (amended).  A fence line followed by source lines none of which
closes the fence consumes all remaining input as code: the output is one
filler line, then each source line rendered — a blank source line as one
full-width filler line, a nonblank source line word-wrapped by Python's
textwrap at width-2 (whitespace-collapsing greedy word wrap with long words
broken, not a raw character-count split), each wrapped piece shown as a
space plus the piece left-justified to width-1 — then one filler line. -/
theorem C5_code_block (width base : Nat) (cls : List (List Char))
    (hno : ∀ l ∈ cls, startsWithChars ("```".toList) (pyStrip l) = false) :
    render_markdown_lines width base (cls.length + 1) (("```".toList) :: cls) =
        fillerLine width :: ((cls.map (codeLine width)).flatten ++ [fillerLine width]) ∧
      (∀ cl ∈ cls, (pyStrip cl).isEmpty = true → codeLine width cl = [fillerLine width]) ∧
      (∀ cl ∈ cls, (pyStrip cl).isEmpty = false →
        codeLine width cl = (textwrapWrap (width - 2) cl).map
          (fun wcl => [(' ' :: ljustChars (width - 1) wcl, colorPair 4)])) := by
  refine ⟨?_, ?_, ?_⟩
  · have hcond : startsWithChars ("```".toList) (pyStrip ("```".toList)) = true := by decide
    simp only [render_markdown_lines, hcond, if_true]
    have htake : cls.takeWhile
        (fun l => !(startsWithChars ("```".toList) (pyStrip l))) = cls := by
      simp only [List.takeWhile_eq_self_iff]
      intro l hl
      show (!(startsWithChars ("```".toList) (pyStrip l))) = true
      rw [hno l hl]
      rfl
    have hdrop : cls.dropWhile
        (fun l => !(startsWithChars ("```".toList) (pyStrip l))) = [] := by
      simp only [List.dropWhile_eq_nil_iff]
      intro l hl
      show (!(startsWithChars ("```".toList) (pyStrip l))) = true
      rw [hno l hl]
      rfl
    rw [htake, hdrop]
    simp only [List.drop_nil, render_lines_nil, List.append_nil]
    rfl
  · intro cl _ hblank
    simp [codeLine, hblank]
  · intro cl _ hblank
    simp [codeLine, hblank]

/-- Witness for C5: the amended theorem applied to the unterminated fence
with body lines "ab cd" and an empty line, at width 6. -/
theorem C5_code_block_witness :
    render_markdown_lines 6 0 3 [("```".toList), ("ab cd".toList), ("".toList)] =
      fillerLine 6 :: (([("ab cd".toList), ("".toList)].map (codeLine 6)).flatten ++
        [fillerLine 6]) :=
  (C5_code_block 6 0 [("ab cd".toList), ("".toList)] (by decide)).1

/-- Claim C5 counterexample.  The code-block body line "ab cd" at width 6 is
wrapped by word boundaries into "ab" and "cd" (Python textwrap at width-2 =
4); a raw character-count hard wrap at 4 characters would give the fragments
"ab c" and "d".  The rendered output contains the word-wrapped lines and not
the raw-split line " ab c ". -/
theorem C5_counterexample :
    render_markdown ("```\nab cd\n```".toList) 6 0 =
        [fillerLine 6, [(" ab   ".toList, colorPair 4)], [(" cd   ".toList, colorPair 4)],
          fillerLine 6] ∧
      chunksOf 4 ("ab cd".toList) = ["ab c".toList, "d".toList] ∧
      ¬ ([(" ab c ".toList, colorPair 4)] ∈
          render_markdown ("```\nab cd\n```".toList) 6 0) := by
  exact ⟨by decide, by decide, by decide⟩

/-! Termination of the dispatch loop (claim C10): the loop index strictly
increases, i.e. every iteration consumes at least one input line, so fuel
equal to the number of lines is enough and any larger fuel gives the same
result. -/

lemma parse_table_snd (lns : List (List Char)) (width base : Nat) :
    (parse_table lns width base).2 = (tableLines lns).length := by
  unfold parse_table
  by_cases h : (tableRowsSegments lns base).isEmpty
  · simp [h]
  · simp only [h, if_false, Bool.false_eq_true]

lemma tableLines_cons_pos (line : List Char) (rest : List (List Char))
    (h : startsWithChars ['|'] (pyStrip line) = true) :
    1 ≤ (tableLines (line :: rest)).length := by
  unfold tableLines
  rw [List.takeWhile_cons]
  simp [h]

lemma length_dropWhile_le {α : Type} (p : α → Bool) :
    ∀ l : List α, (l.dropWhile p).length ≤ l.length := by
  intro l
  induction l with
  | nil => simp
  | cons a l ih =>
    rw [List.dropWhile_cons]
    split
    · simp only [List.length_cons]
      omega
    · simp

lemma render_lines_fuel (width base : Nat) :
    ∀ f1 f2 lns, lns.length ≤ f1 → lns.length ≤ f2 →
      render_markdown_lines width base f1 lns = render_markdown_lines width base f2 lns := by
  intro f1
  induction f1 with
  | zero =>
    intro f2 lns h1 _
    have hlns : lns = [] := by
      cases lns with
      | nil => rfl
      | cons a l => simp at h1
    subst hlns
    rw [render_lines_nil, render_lines_nil]
  | succ n ih =>
    intro f2 lns h1 h2
    cases lns with
    | nil => rw [render_lines_nil, render_lines_nil]
    | cons line rest =>
      cases f2 with
      | zero => simp at h2
      | succ m =>
        have hrest_n : rest.length ≤ n := by
          simp only [List.length_cons] at h1
          omega
        have hrest_m : rest.length ≤ m := by
          simp only [List.length_cons] at h2
          omega
        simp only [render_markdown_lines]
        by_cases hcode : startsWithChars ("```".toList) (pyStrip line) = true
        · simp only [hcode, if_true]
          congr 1
          apply ih
          · have hd := length_dropWhile_le
              (fun l => !(startsWithChars ("```".toList) (pyStrip l))) rest
            simp only [List.length_drop]
            omega
          · have hd := length_dropWhile_le
              (fun l => !(startsWithChars ("```".toList) (pyStrip l))) rest
            simp only [List.length_drop]
            omega
        · simp only [hcode, if_false, Bool.false_eq_true]
          cases hh : headerMatch line with
          | some lc =>
            obtain ⟨level, content⟩ := lc
            simp only []
            congr 1
            exact ih m rest hrest_n hrest_m
          | none =>
            simp only []
            cases hlst : listMatch line with
            | some ilc =>
              obtain ⟨indent, rst⟩ := ilc
              obtain ⟨bullet, content⟩ := rst
              simp only []
              congr 1
              exact ih m rest hrest_n hrest_m
            | none =>
              simp only []
              by_cases hpipe : startsWithChars ['|'] (pyStrip line) = true
              · simp only [hpipe, if_true]
                by_cases htab : (parse_table (line :: rest) width base).1.isEmpty
                · simp only [htab, Bool.not_true, if_false, Bool.false_eq_true]
                  congr 1
                  exact ih m rest hrest_n hrest_m
                · have htab' : (!(parse_table (line :: rest) width base).1.isEmpty) = true := by
                    simp [htab]
                  simp only [htab', if_true]
                  congr 1
                  apply ih
                  · have hc : 1 ≤ (parse_table (line :: rest) width base).2 := by
                      rw [parse_table_snd]
                      exact tableLines_cons_pos line rest hpipe
                    simp only [List.length_drop, List.length_cons]
                    omega
                  · have hc : 1 ≤ (parse_table (line :: rest) width base).2 := by
                      rw [parse_table_snd]
                      exact tableLines_cons_pos line rest hpipe
                    simp only [List.length_drop, List.length_cons]
                    omega
              · simp only [hpipe, if_false, Bool.false_eq_true]
                congr 1
                exact ih m rest hrest_n hrest_m

/-! The inner hard-split loop with Python integer width semantics, used to
exhibit the renderer's divergence at negative wrap widths (claim C10). -/

/-- Python slice `l[:k]` for a possibly negative `k`. -/
def pyTakeInt (k : Int) (l : List Char) : List Char :=
  if k < 0 then l.take (l.length - k.natAbs) else l.take k.toNat

/-- Python slice `l[k:]` for a possibly negative `k`. -/
def pyDropInt (k : Int) (l : List Char) : List Char :=
  if k < 0 then l.drop (l.length - k.natAbs) else l.drop k.toNat

/-- One iteration of the source's hard-split while loop
(src/md_renderer.py lines 59 to 74) with Python integer semantics for the
width, acting on the loop-head state (pending token, current line, current
width).  Returns none when the loop guard `len(part) > 0` fails at entry;
otherwise the state at the next loop head.  When the token remainder is
nonempty the source flushes the current line, so the next loop head has an
empty current line. -/
def hardSplitStepInt (width : Int) (attr : Nat)
    (s : List Char × StyledLine × Nat) : Option (List Char × StyledLine × Nat) :=
  match s with
  | (part, cur, curW) =>
    if part.isEmpty then none
    else
      let spaceLeft0 : Int := width - curW
      let flush : Bool := spaceLeft0 ≤ 0
      let cur1 : StyledLine := if flush then [] else cur
      let curW1 := if flush then 0 else curW
      let spaceLeft : Int := if flush then width else spaceLeft0
      let chunk := pyTakeInt spaceLeft part
      let cur2 := cur1 ++ [(chunk, attr)]
      let curW2 := curW1 + chunk.length
      let part2 := pyDropInt spaceLeft part
      if part2.isEmpty then some (part2, cur2, curW2)
      else some (part2, [], 0)

/-- Claim C10 (amended): the dispatch loop of the renderer always
terminates — the line index strictly increases every iteration, the table
branch consuming at least its first pipe-prefixed line — so fuel equal to
the number of input lines is exact and any larger fuel yields the same
output. -/
theorem C10_dispatch_terminates (width base : Nat) (fuel : Nat)
    (lns : List (List Char)) (line : List Char) (rest : List (List Char))
    (hfuel : lns.length ≤ fuel)
    (hpipe : startsWithChars ['|'] (pyStrip line) = true) :
    render_markdown_lines width base fuel lns =
        render_markdown_lines width base lns.length lns ∧
      1 ≤ (parse_table (line :: rest) width base).2 := by
  constructor
  · exact render_lines_fuel width base fuel lns.length lns hfuel le_rfl
  · rw [parse_table_snd]
    exact tableLines_cons_pos line rest hpipe

/-- Witness for C10 at concrete inputs. -/
theorem C10_dispatch_terminates_witness :
    render_markdown_lines 40 0 7 [("hello".toList)] =
        render_markdown_lines 40 0 1 [("hello".toList)] ∧
      1 ≤ (parse_table [("| x |".toList)] 40 0).2 := by
  have h := C10_dispatch_terminates 40 0 7 [("hello".toList)] ("| x |".toList) []
    (by decide) (by decide)
  exact ⟨h.1, h.2⟩

/-- Claim C10 counterexample: the renderer does not terminate on every
input.  The list line "    * a" has rendered prefix "    • " of length 6; at
width 5 the source wraps the content at width - 6 = -1 (a Python int).  In
the hard-split loop at width -1 the loop-head state (token "a", empty
current line, width 0) steps to itself with the loop guard still true, so
the source's while loop runs forever: render_markdown("    * a", 5) never
returns.  The dispatch-level reason given in the claim is itself true (see
the amended theorem); the divergence is in the inner wrap loop. -/
theorem C10_counterexample :
    listMatch ("    * a".toList) = some ("    ".toList, "*".toList, "a".toList) ∧
      ("    ".toList ++ normBullet ("*".toList) ++ [' ']).length = 6 ∧
      ¬ (6 ≤ 5) ∧
      hardSplitStepInt (-1) 0 (("a".toList), [], 0) = some (("a".toList), [], 0) ∧
      ("a".toList).isEmpty = false := by
  exact ⟨by decide, by decide, by decide, by decide, by decide⟩

/-! The TUI controller (src/tui.py): the streaming worker, the stream-queue
dispatcher and handlers, the send command and the scroll arithmetic. -/

/-- A stream-queue item `(msg_type, data)` as pushed by the workers of
src/tui.py. -/
abbrev QueueItem := List Char × Option (List Char)

/-- Python's tuple unpacking `chunk_type, chunk_content = s` applied to a
string: it succeeds exactly for a two-character string, binding the two
one-character strings, and raises ValueError otherwise.  This is what the
loop header `for chunk_type, chunk_content in api.call_llm(...)`
(src/tui.py line 519) does to each yielded item, because `api.call_llm`
(src/api.py lines 4 to 12) yields plain content strings, not pairs. -/
def unpackPair (s : List Char) : Option (List Char × List Char) :=
  match s with
  | [c1, c2] => some ([c1], [c2])
  | _ => none

/-- `ChatTUI._api_worker` (src/tui.py lines 514 to 526) over the sequence of
items yielded by `api.call_llm`, as the list of queue items it pushes.
`stopFlag i` is the value of `self.stop_event.is_set()` observed at the
check of iteration `i`: the flag is read after the loop header binds the
next chunk and before that chunk is forwarded.  A chunk on which the tuple
unpacking fails raises ValueError inside the `try`, producing one
`("error", message)` item (the CPython message text is abbreviated here).
`errAtEnd` models `api.call_llm` itself raising after yielding all listed
chunks (a network or decode failure), with `str(e)` as payload; `none`
models normal exhaustion, which pushes exactly one `("done", None)`. -/
def apiWorker (stopFlag : Nat → Bool) (errAtEnd : Option (List Char)) :
    Nat → List (List Char) → List QueueItem
  | _, [] =>
    match errAtEnd with
    | none => [(("done".toList), none)]
    | some m => [(("error".toList), some m)]
  | i, s :: rest =>
    match unpackPair s with
    | none => [(("error".toList), some ("ValueError".toList))]
    | some (t, c) =>
      if stopFlag i then [(("cancelled".toList), none)]
      else (t, some c) :: apiWorker stopFlag errAtEnd (i + 1) rest

/-- A queue item is terminal when its type is done, cancelled or error. -/
def isTerminalItem (e : QueueItem) : Bool :=
  decide (e.1 = ("done".toList)) || decide (e.1 = ("cancelled".toList)) ||
    decide (e.1 = ("error".toList))

/-- The item the worker forwards for a chunk that unpacks, used to state the
cancellation theorem; a chunk that does not unpack is unreachable under that
theorem's hypotheses. -/
def forwardItem (s : List Char) : QueueItem :=
  match unpackPair s with
  | some (t, c) => (t, some c)
  | none => (("error".toList), some ("ValueError".toList))

/-- A message of the in-memory conversation (`self.messages` of src/tui.py):
the dict keys role/content/reasoning/provider/model; the user message built
by `_send_message` has no reasoning key, modelled as `none`. -/
structure UIMsg where
  role : List Char
  content : List Char
  reasoning : Option (List Char)
  provider : List Char
  model : List Char
deriving DecidableEq

/-- The part of `ChatTUI`'s state touched by the send command and the stream
handlers.  `persisted` records the rows appended through `db.add_message`
(in call order); `apiWorkers` counts the `threading.Thread(..._api_worker...)`
starts. -/
structure TUIState where
  messages : List UIMsg
  inputText : List Char
  cursorPos : Nat
  isThinking : Bool
  stopEventSet : Bool
  provider : List Char
  model : List Char
  persisted : List UIMsg
  apiWorkers : Nat
deriving DecidableEq

/-- `ChatTUI._ensure_assistant_message` (src/tui.py lines 609 to 615). -/
def ensureAssistant (st : TUIState) : TUIState :=
  match st.messages.getLast? with
  | some m =>
    if m.role = ("assistant".toList) then st
    else { st with messages := st.messages ++
      [⟨("assistant".toList), [], some [], st.provider, st.model⟩] }
  | none => { st with messages := st.messages ++
      [⟨("assistant".toList), [], some [], st.provider, st.model⟩] }

/-- Replace the last message (guaranteed to exist by `ensureAssistant`). -/
def modifyLast (st : TUIState) (f : UIMsg → UIMsg) : TUIState :=
  match st.messages.getLast? with
  | some m => { st with messages := st.messages.dropLast ++ [f m] }
  | none => st

/-- `ChatTUI._handle_content_chunk` (src/tui.py lines 559 to 562). -/
def handleContent (st : TUIState) (d : Option (List Char)) : TUIState :=
  modifyLast (ensureAssistant st) (fun m => { m with content := m.content ++ d.getD [] })

/-- `ChatTUI._handle_reasoning_chunk` (src/tui.py lines 564 to 567). -/
def handleReasoning (st : TUIState) (d : Option (List Char)) : TUIState :=
  modifyLast (ensureAssistant st)
    (fun m => { m with reasoning := some (m.reasoning.getD [] ++ d.getD []) })

/-- `ChatTUI._handle_stream_done` (src/tui.py lines 569 to 582).  The
handler sets is_thinking to False and then calls `self.db.add_message(...,
reasoning=...)`; `Database.add_message` (src/db.py line 49) accepts no
`reasoning` keyword, so the call raises TypeError (and with an empty
conversation the preceding `self.messages[-1]` raises IndexError).  Either
way the handler raises, the exception escapes `_process_stream_queue`, and
the main loop — which catches only KeyboardInterrupt — crashes; modelled as
`none`. -/
def handleDone (_ : TUIState) : Option TUIState := none

/-- `ChatTUI._handle_stream_cancelled` (src/tui.py lines 588 to 597): with
an open assistant message it appends " [Cancelled]" and then persists with
the same unsupported `reasoning` keyword as `_handle_stream_done`, raising
TypeError (modelled as `none`); otherwise it only clears is_thinking. -/
def handleCancelled (st : TUIState) : Option TUIState :=
  match st.messages.getLast? with
  | some m => if m.role = ("assistant".toList) then none
              else some { st with isThinking := false }
  | none => some { st with isThinking := false }

/-- `ChatTUI._handle_stream_error` (src/tui.py lines 599 to 607): appends a
synthetic assistant message "Error: ..." and persists it (this call passes
no reasoning keyword and succeeds). -/
def handleError (st : TUIState) (d : Option (List Char)) : TUIState :=
  let errMsg := ("Error: ".toList) ++ d.getD []
  { st with
    isThinking := false,
    messages := st.messages ++
      [⟨("assistant".toList), errMsg, some [], st.provider, st.model⟩],
    persisted := st.persisted ++
      [⟨("assistant".toList), errMsg, none, st.provider, st.model⟩] }

/-- One step of `ChatTUI._process_stream_queue` (src/tui.py lines 548 to
557): look the item's type up in `self._stream_handlers` and apply the
handler; an unknown type is silently dropped.  `title_updated` reloads the
chat list, which is outside this state, so it is the identity here.
`none` models a handler raising an uncaught exception (see `handleDone`). -/
def processItem (st : TUIState) (e : QueueItem) : Option TUIState :=
  if e.1 = ("content".toList) then some (handleContent st e.2)
  else if e.1 = ("reasoning".toList) then some (handleReasoning st e.2)
  else if e.1 = ("done".toList) then handleDone st
  else if e.1 = ("title_updated".toList) then some st
  else if e.1 = ("cancelled".toList) then handleCancelled st
  else if e.1 = ("error".toList) then some (handleError st e.2)
  else some st

/-- `ChatTUI._send_message` (src/tui.py lines 639 to 655): a no-op when the
stripped input is empty or a send is outstanding; otherwise persists the
user message, appends it to the conversation, clears the input field and
cursor, marks the session thinking, clears the stop event and starts exactly
one api worker thread. -/
def sendMessage (st : TUIState) : TUIState :=
  if (pyStrip st.inputText).isEmpty || st.isThinking then st
  else
    let userMsg : UIMsg :=
      ⟨("user".toList), pyStrip st.inputText, none, st.provider, st.model⟩
    { st with
      persisted := st.persisted ++ [userMsg],
      messages := st.messages ++ [userMsg],
      inputText := [],
      cursorPos := 0,
      isThinking := true,
      stopEventSet := false,
      apiWorkers := st.apiWorkers + 1 }

/-- The scroll recompute of `ChatTUI._draw_messages` (src/tui.py lines 244
to 251): `max_scroll = max(0, total - max_visible)`; auto-scroll pins the
offset to `max_scroll`, otherwise the stored offset is clamped to it.
Python integers throughout. -/
def recomputeScroll (total maxVisible : Int) (auto : Bool) (offset : Int) : Int :=
  let maxScroll := max 0 (total - maxVisible)
  if auto then maxScroll else min offset maxScroll

/-- `ChatTUI._handle_page_scroll` (src/tui.py lines 788 to 795): disables
auto-scroll and moves by half a page, clamped at zero on the way up. -/
def handlePageScroll (halfPage direction offset : Int) : Int × Bool :=
  (if direction < 0 then max 0 (offset - halfPage) else offset + halfPage, false)

/-- `ChatTUI._handle_line_scroll` (src/tui.py lines 797 to 803). -/
def handleLineScroll (direction offset : Int) : Int × Bool :=
  (if direction < 0 then max 0 (offset - 1) else offset + 1, false)

-- Sanity checks against the source behaviour.
example : apiWorker (fun _ => false) none 0 [("Hi".toList)] =
    [((['H'] : List Char), some ['i']), (("done".toList), none)] := by decide
example : apiWorker (fun _ => false) none 0 [("Hello".toList)] =
    [(("error".toList), some ("ValueError".toList))] := by decide
example : apiWorker (fun i => decide (1 ≤ i)) none 0 [("ab".toList), ("cd".toList)] =
    [((['a'] : List Char), some ['b']), (("cancelled".toList), none)] := by decide

/-! Worker lemmas: the run always ends in exactly one terminal item, and a
cancellation observed at a check truncates the run with one cancelled item. -/

lemma getLastD_cons_ne_nil {α : Type} (x d : α) (l : List α) (h : l ≠ []) :
    (x :: l).getLastD d = l.getLastD d := by
  cases l with
  | nil => contradiction
  | cons y l' =>
    show (y :: l').getLastD x = (y :: l').getLastD d
    exact getLastD_indep y x d l'

lemma ne_of_length_ne {α : Type} {a b : List α} (h : a.length ≠ b.length) : a ≠ b := by
  intro hE
  rw [hE] at h
  exact h rfl

lemma singleton_ne_of_long (c : Char) (l : List Char) (h : 2 ≤ l.length) :
    ([c] : List Char) ≠ l := by
  intro hE
  have hlen := congrArg List.length hE
  simp at hlen
  omega

lemma one_char_not_terminal (c : Char) (d : Option (List Char)) :
    isTerminalItem ([c], d) = false := by
  have h1 := singleton_ne_of_long c ("done".toList) (by decide)
  have h2 := singleton_ne_of_long c ("cancelled".toList) (by decide)
  have h3 := singleton_ne_of_long c ("error".toList) (by decide)
  simp [isTerminalItem, h1, h2, h3]

lemma unpackPair_shape (s t c : List Char) (h : unpackPair s = some (t, c)) :
    ∃ c1 c2, t = [c1] ∧ c = [c2] := by
  cases s with
  | nil => simp [unpackPair] at h
  | cons a s' =>
    cases s' with
    | nil => simp [unpackPair] at h
    | cons b s'' =>
      cases s'' with
      | nil =>
        simp only [unpackPair, Option.some.injEq, Prod.mk.injEq] at h
        exact ⟨a, b, h.1.symm, h.2.symm⟩
      | cons x s''' => simp [unpackPair] at h

lemma apiWorker_terminal (stopFlag : Nat → Bool) (errAtEnd : Option (List Char)) :
    ∀ chunks i,
      apiWorker stopFlag errAtEnd i chunks ≠ [] ∧
        isTerminalItem ((apiWorker stopFlag errAtEnd i chunks).getLastD
          ((("done".toList), none))) = true ∧
        ∀ e ∈ (apiWorker stopFlag errAtEnd i chunks).dropLast,
          isTerminalItem e = false := by
  intro chunks
  induction chunks with
  | nil =>
    intro i
    cases errAtEnd with
    | none =>
      refine ⟨by simp [apiWorker], ?_, by simp [apiWorker]⟩
      show isTerminalItem ((("done".toList), none)) = true
      decide
    | some m =>
      refine ⟨by simp [apiWorker], ?_, by simp [apiWorker]⟩
      show isTerminalItem ((("error".toList), some m)) = true
      simp [isTerminalItem]
  | cons s rest ih =>
    intro i
    simp only [apiWorker]
    cases hu : unpackPair s with
    | none =>
      refine ⟨by simp, ?_, by simp⟩
      show isTerminalItem ((("error".toList), some ("ValueError".toList))) = true
      decide
    | some tc =>
      obtain ⟨t, c⟩ := tc
      by_cases hstop : stopFlag i = true
      · simp only [hstop, if_true]
        exact ⟨by simp, by decide, by simp⟩
      · have hstop' : stopFlag i = false := by
          cases hE : stopFlag i
          · rfl
          · exact absurd hE hstop
        simp only [hstop', Bool.false_eq_true, if_false]
        obtain ⟨hne, hlast, hdrop⟩ := ih (i + 1)
        refine ⟨by simp, ?_, ?_⟩
        · rw [getLastD_cons_ne_nil _ _ _ hne]
          exact hlast
        · rw [dropLast_cons_ne _ _ hne]
          intro e he
          rcases List.mem_cons.mp he with rfl | he2
          · obtain ⟨c1, c2, rfl, rfl⟩ := unpackPair_shape s t c hu
            exact one_char_not_terminal c1 _
          · exact hdrop e he2

lemma apiWorker_cancel (stopFlag : Nat → Bool) (errAtEnd : Option (List Char)) :
    ∀ (pre : List (List Char)) (s : List Char) (suf : List (List Char)) (i : Nat),
      (∀ j, j < pre.length → stopFlag (i + j) = false) →
      (∀ p ∈ pre, (unpackPair p).isSome = true) →
      (unpackPair s).isSome = true →
      stopFlag (i + pre.length) = true →
      apiWorker stopFlag errAtEnd i (pre ++ s :: suf) =
        pre.map forwardItem ++ [(("cancelled".toList), none)] := by
  intro pre
  induction pre with
  | nil =>
    intro s suf i _ _ hs hstop
    simp only [List.nil_append, apiWorker]
    cases hu : unpackPair s with
    | none =>
      rw [hu] at hs
      simp at hs
    | some tc =>
      obtain ⟨t, c⟩ := tc
      have hstop0 : stopFlag i = true := by
        simpa using hstop
      simp [hstop0]
  | cons p pre ih =>
    intro s suf i hflags hpre hs hstop
    simp only [List.cons_append, apiWorker]
    cases hu : unpackPair p with
    | none =>
      have hmem := hpre p (List.mem_cons_self p pre)
      rw [hu] at hmem
      simp at hmem
    | some tc =>
      obtain ⟨t, c⟩ := tc
      have hstop0 : stopFlag i = false := by
        have h0 := hflags 0 (by simp)
        simpa using h0
      simp only [hstop0, Bool.false_eq_true, if_false]
      have hflags' : ∀ j, j < pre.length → stopFlag (i + 1 + j) = false := by
        intro j hj
        have h := hflags (j + 1) (by simp only [List.length_cons]; omega)
        have harith : i + (j + 1) = i + 1 + j := by omega
        rw [harith] at h
        exact h
      have hstop' : stopFlag (i + 1 + pre.length) = true := by
        have harith : i + (p :: pre).length = i + 1 + pre.length := by
          simp only [List.length_cons]
          omega
        rw [harith] at hstop
        exact hstop
      simp only [List.append_eq]
      rw [ih s suf (i + 1) hflags' (fun q hq => hpre q (List.mem_cons_of_mem p hq))
        hs hstop']
      simp [forwardItem, hu]

lemma apiWorker_no_content (stopFlag : Nat → Bool) (errAtEnd : Option (List Char)) :
    ∀ chunks i, ∀ e ∈ apiWorker stopFlag errAtEnd i chunks,
      e.1 ≠ ("content".toList) := by
  intro chunks
  induction chunks with
  | nil =>
    intro i e he
    cases errAtEnd with
    | none =>
      simp only [apiWorker, List.mem_singleton] at he
      subst he
      decide
    | some m =>
      simp only [apiWorker, List.mem_singleton] at he
      subst he
      show ("error".toList) ≠ ("content".toList)
      decide
  | cons s rest ih =>
    intro i e he
    simp only [apiWorker] at he
    cases hu : unpackPair s with
    | none =>
      rw [hu] at he
      simp only [List.mem_singleton] at he
      subst he
      show ("error".toList) ≠ ("content".toList)
      decide
    | some tc =>
      obtain ⟨t, c⟩ := tc
      rw [hu] at he
      by_cases hstop : stopFlag i = true
      · simp only [hstop, if_true, List.mem_singleton] at he
        subst he
        decide
      · have hstop' : stopFlag i = false := by
          cases hE : stopFlag i
          · rfl
          · exact absurd hE hstop
        simp only [hstop', Bool.false_eq_true, if_false] at he
        rcases List.mem_cons.mp he with rfl | he2
        · obtain ⟨c1, c2, rfl, rfl⟩ := unpackPair_shape s t c hu
          exact singleton_ne_of_long c1 ("content".toList) (by decide)
        · exact ih (i + 1) e he2

/-- A conversation state immediately after a send: one user message, the
session thinking, one worker started. -/
def demoSendState : TUIState :=
  ⟨[⟨("user".toList), ("q".toList), none, ("ollama".toList), ("m".toList)⟩],
    [], 0, true, false, ("ollama".toList), ("m".toList),
    [⟨("user".toList), ("q".toList), none, ("ollama".toList), ("m".toList)⟩], 1⟩

/-- Claim C1 (code bug).  `api.call_llm` yields plain content strings, but
`_api_worker` iterates it with `for chunk_type, chunk_content in ...`, so
every yielded chunk goes through string tuple-unpacking: a two-character
chunk "Hi" is silently mis-split into the queue item ("H", "i") — whose type
"H" matches no handler and is dropped — and any chunk of another length
raises ValueError, turning the whole run into a single error event.  The
worker can therefore never emit a ("content", ...) event at all, and the
open message's content never becomes the concatenation of the streamed
chunks; in addition the eventual "done" is handled by `_handle_stream_done`,
which crashes on a `reasoning` keyword that `Database.add_message` does not
accept. -/
theorem C1_stream_order_bug :
    apiWorker (fun _ => false) none 0 [("Hi".toList)] =
        [((['H'] : List Char), some ['i']), (("done".toList), none)] ∧
      apiWorker (fun _ => false) none 0 [("Hello".toList)] =
        [(("error".toList), some ("ValueError".toList))] ∧
      (∀ (stopFlag : Nat → Bool) (errAtEnd : Option (List Char))
          (chunks : List (List Char)) (i : Nat),
        ∀ e ∈ apiWorker stopFlag errAtEnd i chunks, e.1 ≠ ("content".toList)) ∧
      processItem demoSendState ((['H'] : List Char), some ['i']) = some demoSendState ∧
      handleDone demoSendState = none := by
  refine ⟨by decide, by decide, ?_, by decide, rfl⟩
  intro stopFlag errAtEnd chunks i
  exact apiWorker_no_content stopFlag errAtEnd chunks i

/-- Claim C2: every worker run pushes exactly one terminal item (done,
cancelled or error), as its last item; and when the cancellation flag is
first observed set at the check before forwarding a chunk — the check runs
after the loop header unpacks that chunk — the worker emits exactly one
cancelled item in place of done and forwards nothing further from that
call. -/
theorem C2_worker_cancellation (stopFlag : Nat → Bool) (errAtEnd : Option (List Char))
    (chunks pre : List (List Char)) (s : List Char) (suf : List (List Char)) (i : Nat) :
    (apiWorker stopFlag errAtEnd i chunks ≠ [] ∧
        isTerminalItem ((apiWorker stopFlag errAtEnd i chunks).getLastD
          ((("done".toList), none))) = true ∧
        ∀ e ∈ (apiWorker stopFlag errAtEnd i chunks).dropLast,
          isTerminalItem e = false) ∧
      ((∀ j, j < pre.length → stopFlag j = false) →
        (∀ p ∈ pre, (unpackPair p).isSome = true) →
        (unpackPair s).isSome = true →
        stopFlag pre.length = true →
        apiWorker stopFlag errAtEnd 0 (pre ++ s :: suf) =
          pre.map forwardItem ++ [(("cancelled".toList), none)]) := by
  constructor
  · exact apiWorker_terminal stopFlag errAtEnd chunks i
  · intro h1 h2 h3 h4
    refine apiWorker_cancel stopFlag errAtEnd pre s suf 0 ?_ h2 h3 ?_
    · intro j hj
      simpa using h1 j hj
    · simpa using h4

/-- Witness for C2: a flag that becomes set from the second check on; the
worker forwards the first chunk and then cancels, never reaching the
remaining chunk or done. -/
theorem C2_worker_cancellation_witness :
    apiWorker (fun i => decide (1 ≤ i)) none 0
        [("ab".toList), ("cd".toList), ("ef".toList)] =
      [("ab".toList)].map forwardItem ++ [(("cancelled".toList), none)] := by
  refine (C2_worker_cancellation (fun i => decide (1 ≤ i)) none []
      [("ab".toList)] ("cd".toList) [("ef".toList)] 0).2 ?_ ?_ ?_ ?_
  · intro j hj
    have hj0 : j = 0 := by
      simp only [List.length_singleton] at hj
      omega
    subst hj0
    rfl
  · intro p hp
    rw [List.mem_singleton.mp hp]
    decide
  · decide
  · rfl

/-- Claim C8: after the per-draw recompute the scroll offset lies in
[0, max(0, total - maxVisible)]; with auto-scroll on it equals the maximum,
otherwise it is the stored offset clamped to the maximum; and the page and
line scroll commands never store a negative offset. -/
theorem C8_scroll_clamp (total maxVisible offset halfPage direction : Int)
    (auto : Bool) (hoff : 0 ≤ offset) (hhp : 0 ≤ halfPage) :
    0 ≤ recomputeScroll total maxVisible auto offset ∧
      recomputeScroll total maxVisible auto offset ≤ max 0 (total - maxVisible) ∧
      (auto = true →
        recomputeScroll total maxVisible auto offset = max 0 (total - maxVisible)) ∧
      (auto = false →
        recomputeScroll total maxVisible auto offset =
          min offset (max 0 (total - maxVisible))) ∧
      0 ≤ (handlePageScroll halfPage direction offset).1 ∧
      0 ≤ (handleLineScroll direction offset).1 := by
  unfold recomputeScroll handlePageScroll handleLineScroll
  by_cases hdir : direction < 0 <;> cases auto <;> simp [hdir] <;> omega

/-- Witness for C8 at concrete values. -/
theorem C8_scroll_clamp_witness :
    0 ≤ recomputeScroll 100 20 false 95 ∧
      recomputeScroll 100 20 false 95 ≤ max 0 (100 - 20) := by
  have h := C8_scroll_clamp 100 20 95 10 1 false (by decide) (by decide)
  exact ⟨h.1, h.2.1⟩

/-- Claim C9: the send command is a no-op when the stripped input is empty
or a send is outstanding; otherwise it persists the user message, appends it
to the conversation, clears the input field and cursor, marks the session
thinking and starts exactly one worker. -/
theorem C9_send_message (st : TUIState) :
    (((pyStrip st.inputText).isEmpty = true ∨ st.isThinking = true) →
        sendMessage st = st) ∧
      ((pyStrip st.inputText).isEmpty = false → st.isThinking = false →
        (sendMessage st).messages = st.messages ++
            [⟨("user".toList), pyStrip st.inputText, none, st.provider, st.model⟩] ∧
          (sendMessage st).persisted = st.persisted ++
            [⟨("user".toList), pyStrip st.inputText, none, st.provider, st.model⟩] ∧
          (sendMessage st).inputText = [] ∧
          (sendMessage st).cursorPos = 0 ∧
          (sendMessage st).isThinking = true ∧
          (sendMessage st).stopEventSet = false ∧
          (sendMessage st).apiWorkers = st.apiWorkers + 1) := by
  constructor
  · intro h
    unfold sendMessage
    rcases h with h | h
    · simp [h]
    · simp [h]
  · intro h1 h2
    unfold sendMessage
    simp [h1, h2]

/-- Witness for C9: blank input is rejected unchanged; nonblank input is
sent, appending the stripped user message. -/
theorem C9_send_message_witness :
    (sendMessage ⟨[], (" ".toList), 1, false, false, ("o".toList), ("m".toList), [], 0⟩ =
        ⟨[], (" ".toList), 1, false, false, ("o".toList), ("m".toList), [], 0⟩) ∧
      (sendMessage ⟨[], ("hi ".toList), 3, false, false,
          ("o".toList), ("m".toList), [], 0⟩).messages =
        [] ++ [⟨("user".toList), pyStrip ("hi ".toList), none,
          ("o".toList), ("m".toList)⟩] := by
  constructor
  · exact (C9_send_message _).1 (Or.inl (by decide))
  · exact ((C9_send_message _).2 (by decide) (by decide)).1

end Aitui
